import Mathlib

/-!
# Verification of the `SubtitleConverter` tool (lrc-vtt-srt-translator.py)

Shallow embedding of the subtitle converter: strings are lists of
characters (`PStr`), Python floats are modelled as exact rationals `ℚ`
(all times produced by the program are integer numbers of milliseconds,
so rational arithmetic is the idealised float semantics the spec
describes), and the only partial operation in the source — the unguarded
`lines[i]` access in `parse_srt` — is modelled with `Except`.

The regular expressions of the source are embedded as deterministic
matchers.  Each `\d{1,2}` group of `time_pattern` and `lrc_time_pattern`
is followed by a non-digit literal (`:`, `,`, `.`, `]`), so greedy
matching with backtracking succeeds exactly when the maximal digit run
at that position has length 1 or 2 and is followed by the literal; the
final `\d{1,3}` group of `time_pattern` ends the pattern, so it takes
`min 3` characters of the maximal digit run, requiring at least one.
The matchers below implement exactly that determinisation.
-/

attribute [local semireducible] Rat.add Rat.mul Rat.inv Rat.sub

/-- Python strings, embedded as lists of characters. -/
abbrev PStr := List Char

/-- Embed a Lean string literal as a `PStr`. -/
def ofStr (s : String) : PStr := s.data

/-- A cue: `(start_seconds, end_seconds, text)`, as in the Python tuples. -/
abbrev Cue := ℚ × ℚ × PStr

/-- The whitespace characters stripped by Python `str.strip()` (ASCII range). -/
def isPySpace (c : Char) : Bool :=
  c == ' ' || c == '\t' || c == '\n' || c == '\r' || c == '\x0b' || c == '\x0c'

/-- Python `str.strip()`. -/
def pstrip (s : PStr) : PStr :=
  ((s.dropWhile isPySpace).reverse.dropWhile isPySpace).reverse

/-- Python `str.split('\n')`. -/
def splitNl : PStr → List PStr
  | [] => [[]]
  | c :: rest =>
    if c = '\n' then [] :: splitNl rest
    else
      match splitNl rest with
      | [] => [[c]]
      | l :: ls => (c :: l) :: ls

/-- Python `'\n'.join(...)`. -/
def joinNl : List PStr → PStr
  | [] => []
  | [l] => l
  | l :: ls => l ++ '\n' :: joinNl ls

/-- Python `time_line.split(' --> ')`: split on every non-overlapping
occurrence of the five-character separator `" --> "`, scanning left to
right. -/
def splitArrow : PStr → List PStr
  | ' ' :: '-' :: '-' :: '>' :: ' ' :: rest => [] :: splitArrow rest
  | c :: rest =>
    match splitArrow rest with
    | [] => [[c]]
    | l :: ls => (c :: l) :: ls
  | [] => [[]]

/-- Python `'-->' in line`: substring containment of `"-->"`. -/
def containsArrow : PStr → Bool
  | '-' :: '-' :: '>' :: _ => true
  | _ :: rest => containsArrow rest
  | [] => false

/-- Python `str.isdigit()` (ASCII digits). -/
def isDigitStr (s : PStr) : Bool := !s.isEmpty && s.all Char.isDigit

/-- Numeric value of a digit string, as produced by Python `int(...)`. -/
def digitsVal (s : PStr) : ℕ := s.foldl (fun a c => a * 10 + (c.toNat - 48)) 0

/-- Maximal digit run at the front of a string, and the remainder. -/
def spanDigits (s : PStr) : PStr × PStr :=
  (s.takeWhile Char.isDigit, s.dropWhile Char.isDigit)

/-- `time_pattern.match`: the regex
`(\d,1-2):(\d,1-2):(\d,1-2)[,.](\d,1-3)` anchored at the start of the
string (see the header comment for the determinisation argument).
Returns the four captured integers. -/
def matchTimeHead (s : PStr) : Option (ℕ × ℕ × ℕ × ℕ) :=
  let (d1, r1) := spanDigits s
  if d1.length = 0 ∨ 3 ≤ d1.length then none else
  match r1 with
  | [] => none
  | c1 :: r2 =>
    if c1 = ':' then
      let (d2, r3) := spanDigits r2
      if d2.length = 0 ∨ 3 ≤ d2.length then none else
      match r3 with
      | [] => none
      | c2 :: r4 =>
        if c2 = ':' then
          let (d3, r5) := spanDigits r4
          if d3.length = 0 ∨ 3 ≤ d3.length then none else
          match r5 with
          | [] => none
          | c3 :: r6 =>
            if c3 = ',' ∨ c3 = '.' then
              let (d4, _) := spanDigits r6
              if d4.length = 0 then none
              else some (digitsVal d1, digitsVal d2, digitsVal d3, digitsVal (d4.take 3))
            else none
        else none
    else none

/-- `lrc_time_pattern` matched at the start of a string:
`\[(\d,1-2):(\d,1-2)\.(\d,1-2)\]`.  Returns the three captured integers
and the remainder of the string after the match. -/
def lrcMatchHead (s : PStr) : Option ((ℕ × ℕ × ℕ) × PStr) :=
  match s with
  | [] => none
  | c0 :: r0 =>
    if c0 = '[' then
      let (d1, r1) := spanDigits r0
      if d1.length = 0 ∨ 3 ≤ d1.length then none else
      match r1 with
      | [] => none
      | c1 :: r2 =>
        if c1 = ':' then
          let (d2, r3) := spanDigits r2
          if d2.length = 0 ∨ 3 ≤ d2.length then none else
          match r3 with
          | [] => none
          | c2 :: r4 =>
            if c2 = '.' then
              let (d3, r5) := spanDigits r4
              if d3.length = 0 ∨ 3 ≤ d3.length then none else
              match r5 with
              | [] => none
              | c3 :: r6 =>
                if c3 = ']' then some ((digitsVal d1, digitsVal d2, digitsVal d3), r6)
                else none
            else none
        else none
    else none

/-- `SubtitleConverter.parse_time`. -/
def parse_time (time_str : PStr) (format : String) : ℚ :=
  if format = "srt" ∨ format = "vtt" then
    match matchTimeHead time_str with
    | some (h, m, s, ms) => h * 3600 + m * 60 + s + (ms : ℚ) / 1000
    | none => 0
  else if format = "lrc" then
    match lrcMatchHead time_str with
    | some ((m, s, cs), _) => m * 60 + s + (cs : ℚ) / 100
    | none => 0
  else 0

/-- Python `int(...)` on a float: truncation toward zero. -/
def pyTrunc (q : ℚ) : ℤ := if 0 ≤ q then ⌊q⌋ else ⌈q⌉

/-- Python `a // b` on floats: floor of the quotient. -/
def pyFloorDiv (a b : ℚ) : ℚ := (⌊a / b⌋ : ℚ)

/-- Python `a % b` on floats (exact for the nonnegative uses here). -/
def pyMod (a b : ℚ) : ℚ := a - b * (⌊a / b⌋ : ℚ)

/-- Decimal digits of a natural number (fuelled so that it reduces in the
kernel; `natDigits` supplies sufficient fuel). -/
def natDigitsF : ℕ → ℕ → PStr
  | 0, _ => []
  | f + 1, n => if n < 10 then [Nat.digitChar n]
                else natDigitsF f (n / 10) ++ [Nat.digitChar (n % 10)]

/-- Decimal digit string of a natural number. -/
def natDigits (n : ℕ) : PStr := natDigitsF (n + 1) n

/-- Python `f"{n:0wd}"` for a natural number: zero-pad to width `w`. -/
def padNat (w n : ℕ) : PStr := List.replicate (w - (natDigits n).length) '0' ++ natDigits n

/-- Python `f"{i:0wd}"` for an int (the minus sign counts toward the width). -/
def fmtInt (w : ℕ) (i : ℤ) : PStr :=
  if i < 0 then '-' :: padNat (w - 1) i.natAbs else padNat w i.toNat

/-- `SubtitleConverter.format_time`. -/
def format_time (seconds : ℚ) (target_format : String) : PStr :=
  if target_format = "srt" then
    let h := pyTrunc (pyFloorDiv seconds 3600)
    let m := pyTrunc (pyFloorDiv (pyMod seconds 3600) 60)
    let s := pyTrunc (pyMod seconds 60)
    let ms := pyTrunc ((seconds - (pyTrunc seconds : ℚ)) * 1000)
    fmtInt 2 h ++ ':' :: fmtInt 2 m ++ ':' :: fmtInt 2 s ++ ',' :: fmtInt 3 ms
  else if target_format = "vtt" then
    let h := pyTrunc (pyFloorDiv seconds 3600)
    let m := pyTrunc (pyFloorDiv (pyMod seconds 3600) 60)
    let s := pyTrunc (pyMod seconds 60)
    let ms := pyTrunc ((seconds - (pyTrunc seconds : ℚ)) * 1000)
    fmtInt 2 h ++ ':' :: fmtInt 2 m ++ ':' :: fmtInt 2 s ++ '.' :: fmtInt 3 ms
  else if target_format = "lrc" then
    let m := pyTrunc (pyFloorDiv seconds 60)
    let s := pyTrunc (pyMod seconds 60)
    let cs := pyTrunc ((seconds - (pyTrunc seconds : ℚ)) * 100)
    '[' :: fmtInt 2 m ++ ':' :: fmtInt 2 s ++ '.' :: fmtInt 2 cs ++ [']']
  else []

/-- Conversion error conditions.  `indexError` models the unguarded
`lines[i]` access in `parse_srt`; the others are the `ValueError`s the
source raises explicitly. -/
inductive ConvErr where
  | unsupportedInput
  | sameFormat
  | unsupportedOutput
  | indexError
  deriving DecidableEq, Repr

/-- Truthiness of a stripped line (`lines[i].strip()` used as a
condition): true when the stripped line is nonempty. -/
def nonBlank (x : PStr) : Bool := !(pstrip x).isEmpty

/-- The cue text gathered by the inner `while` loop shared by `parse_srt`
and `parse_vtt`: the stripped forms of the maximal run of lines whose
stripped form is nonempty, joined with newlines. -/
def gatherText (rest : List PStr) : PStr := joinNl ((rest.takeWhile nonBlank).map pstrip)

/-- The lines remaining after the inner text-gathering `while` loop and
the subsequent `i += 1` of the outer loop. -/
def afterText (rest : List PStr) : List PStr := (rest.dropWhile nonBlank).drop 1

/-- Loop of `SubtitleConverter.parse_srt`, fuelled so it reduces in the
kernel (`parse_srt` supplies fuel equal to the number of lines, which the
loop never exhausts: every step consumes at least one line).  The
`.error` case is the `IndexError` raised by `lines[i]` when a digit-only
line is the final line. -/
def parse_srtF : ℕ → List PStr → Except ConvErr (List Cue)
  | _, [] => .ok []
  | 0, _ :: _ => .ok []
  | fuel + 1, l :: rest =>
    if isDigitStr (pstrip l) then
      match rest with
      | [] => .error .indexError
      | tl :: rest2 =>
        match splitArrow (pstrip tl) with
        | [t1, t2] =>
          let start := parse_time (pstrip t1) "srt"
          let stop := parse_time (pstrip t2) "srt"
          match parse_srtF fuel (afterText rest2) with
          | .ok subs => .ok ((start, stop, gatherText rest2) :: subs)
          | .error e => .error e
        | _ => parse_srtF fuel rest2
    else parse_srtF fuel rest

/-- The srt loop with its canonical fuel. -/
def parse_srtL (lines : List PStr) : Except ConvErr (List Cue) :=
  parse_srtF lines.length lines

/-- `SubtitleConverter.parse_srt`. -/
def parse_srt (lines : List PStr) : Except ConvErr (String × List Cue) :=
  (parse_srtL lines).map (fun subs => ("srt", subs))

/-- Loop of `SubtitleConverter.parse_vtt` (fuelled like `parse_srtF`;
this loop performs no unguarded indexing, so it is total). -/
def parse_vttF : ℕ → List PStr → List Cue
  | _, [] => []
  | 0, _ :: _ => []
  | fuel + 1, l :: rest =>
    if containsArrow l then
      match splitArrow (pstrip l) with
      | [t1, t2] =>
        let start := parse_time (pstrip t1) "vtt"
        let stop := parse_time (pstrip t2) "vtt"
        (start, stop, gatherText rest) :: parse_vttF fuel (afterText rest)
      | _ => parse_vttF fuel rest
    else parse_vttF fuel rest

/-- The vtt loop with its canonical fuel. -/
def parse_vttL (lines : List PStr) : List Cue := parse_vttF lines.length lines

/-- `SubtitleConverter.parse_vtt`. -/
def parse_vtt (lines : List PStr) : String × List Cue := ("vtt", parse_vttL lines)

/-- `lrc_time_pattern.findall` and `lrc_time_pattern.sub('', ...)` share
one left-to-right, non-overlapping scan: the first component collects the
captured groups of every match, the second the characters belonging to no
match.  Fuelled like the parsers (every step consumes at least one
character). -/
def lrcScanF : ℕ → PStr → List (ℕ × ℕ × ℕ) × PStr
  | _, [] => ([], [])
  | 0, s => ([], s)
  | fuel + 1, c :: cs =>
    match lrcMatchHead (c :: cs) with
    | some (tag, rest) =>
      let (ts, r) := lrcScanF fuel rest
      (tag :: ts, r)
    | none =>
      let (ts, r) := lrcScanF fuel cs
      (ts, c :: r)

/-- All lrc tags of a string, and the string with the tags removed. -/
def lrcScan (s : PStr) : List (ℕ × ℕ × ℕ) × PStr := lrcScanF s.length s

/-- Seconds value of one captured lrc tag: `m * 60 + s + cs / 100`. -/
def tagSecs : ℕ × ℕ × ℕ → ℚ
  | (m, s, cs) => m * 60 + s + (cs : ℚ) / 100

/-- Python dict assignment `d[k] = v`, on an insertion-ordered
association list. -/
def dset (m : List (ℚ × PStr)) (k : ℚ) (v : PStr) : List (ℚ × PStr) :=
  if m.any (fun p => decide (p.1 = k)) then
    m.map (fun p => if p.1 = k then (k, v) else p)
  else m ++ [(k, v)]

/-- Python dict lookup `d[k]`. -/
def dget (m : List (ℚ × PStr)) (k : ℚ) : Option PStr :=
  (m.find? (fun p => decide (p.1 = k))).map Prod.snd

/-- One iteration of the `for line in lines` loop of `parse_lrc`:
strip the line, skip it when empty or tagless, else store the tag-free
text under every tag's seconds value. -/
def lrcLineStep (m : List (ℚ × PStr)) (line : PStr) : List (ℚ × PStr) :=
  let l := pstrip line
  if l.isEmpty then m
  else
    let (tags, removed) := lrcScan l
    if tags.isEmpty then m
    else
      let text := pstrip removed
      tags.foldl (fun acc tag => dset acc (tagSecs tag) text) m

/-- The `time_text_map` accumulated by `parse_lrc`. -/
def lrcMap (lines : List PStr) : List (ℚ × PStr) := lines.foldl lrcLineStep []

/-- The cue-building loop of `parse_lrc`: each sorted timestamp is a
start, the next sorted timestamp (or `start + 5`) the end. -/
def buildCues (m : List (ℚ × PStr)) : List ℚ → List Cue
  | [] => []
  | [t] => [(t, t + 5, (dget m t).getD [])]
  | t :: t2 :: rest => (t, t2, (dget m t).getD []) :: buildCues m (t2 :: rest)

/-- `SubtitleConverter.parse_lrc`. -/
def parse_lrc (lines : List PStr) : String × List Cue :=
  let m := lrcMap lines
  let sorted_times := (m.map Prod.fst).insertionSort (· ≤ ·)
  ("lrc", buildCues m sorted_times)

/-- `SubtitleConverter.to_srt`. -/
def to_srt (subtitles : List Cue) : PStr :=
  joinNl ((subtitles.enumFrom 1).map fun p =>
    natDigits p.1 ++ '\n' :: format_time p.2.1 "srt" ++ ofStr " --> " ++
      format_time p.2.2.1 "srt" ++ '\n' :: p.2.2.2 ++ ['\n'])

/-- `SubtitleConverter.to_vtt`. -/
def to_vtt (subtitles : List Cue) : PStr :=
  joinNl (ofStr "WEBVTT" :: [] :: subtitles.map fun c =>
    format_time c.1 "vtt" ++ ofStr " --> " ++ format_time c.2.1 "vtt" ++
      '\n' :: c.2.2 ++ ['\n'])

/-- `SubtitleConverter.to_lrc`. -/
def to_lrc (subtitles : List Cue) : PStr :=
  joinNl (subtitles.map fun c => format_time c.1 "lrc" ++ c.2.2)

/-- Python `str.lower()` (ASCII). -/
def lowerStr (s : String) : String := String.mk (s.data.map Char.toLower)

/-- `SubtitleConverter.read_file`.  File input is modelled by passing the
path's suffix (Python `Path(file_path).suffix`) and the file's content;
the content is stripped and split into lines exactly as in the source. -/
def read_file (suffix : String) (content : PStr) : Except ConvErr (String × List Cue) :=
  let lines := splitNl (pstrip content)
  if lowerStr suffix = ".srt" then parse_srt lines
  else if lowerStr suffix = ".vtt" then .ok (parse_vtt lines)
  else if lowerStr suffix = ".lrc" then .ok (parse_lrc lines)
  else .error .unsupportedInput

/-- `SubtitleConverter.convert`. -/
def convert (suffix : String) (content : PStr) (output_format : String) :
    Except ConvErr PStr := do
  let (input_format, subtitles) ← read_file suffix content
  if input_format = output_format then .error .sameFormat
  else if output_format = "srt" then .ok (to_srt subtitles)
  else if output_format = "vtt" then .ok (to_vtt subtitles)
  else if output_format = "lrc" then .ok (to_lrc subtitles)
  else .error .unsupportedOutput

/-! ## Fuel elimination: canonical-fuel equations for the loops -/

theorem length_dropWhile_le (p : PStr → Bool) (l : List PStr) :
    (l.dropWhile p).length ≤ l.length := by
  induction l with
  | nil => simp [List.dropWhile]
  | cons c cs ih =>
    by_cases h : p c <;> simp [List.dropWhile_cons, h] <;> omega

theorem length_dropWhileC_le (p : Char → Bool) (l : PStr) :
    (l.dropWhile p).length ≤ l.length := by
  induction l with
  | nil => simp [List.dropWhile]
  | cons c cs ih =>
    by_cases h : p c <;> simp [List.dropWhile_cons, h] <;> omega

theorem afterText_length_le (rest : List PStr) : (afterText rest).length ≤ rest.length := by
  have h1 := length_dropWhile_le nonBlank rest
  have h2 := List.length_drop 1 (rest.dropWhile nonBlank)
  simp only [afterText]
  omega

theorem parse_srtF_fuel : ∀ (n : ℕ) (lines : List PStr), lines.length ≤ n →
    parse_srtF n lines = parse_srtL lines
  | 0, [], _ => rfl
  | _ + 1, [], _ => rfl
  | 0, _ :: _, h => absurd h (by simp)
  | n + 1, l :: rest, h => by
    have hrest : rest.length ≤ n := by simp at h; omega
    simp only [parse_srtL, List.length_cons, parse_srtF]
    by_cases hd : isDigitStr (pstrip l)
    · simp only [hd, if_true]
      match rest, hrest with
      | [], _ => rfl
      | tl :: rest2, hrest =>
        dsimp only
        have h2 : rest2.length ≤ n := by simp at hrest; omega
        match hsp : splitArrow (pstrip tl) with
        | [t1, t2] =>
          dsimp only
          simp only [List.length_cons]
          rw [parse_srtF_fuel n (afterText rest2)
              (le_trans (afterText_length_le rest2) h2),
            parse_srtF_fuel (rest2.length + 1) (afterText rest2)
              (le_trans (afterText_length_le rest2) (by omega))]
        | [] =>
          dsimp only
          simp only [List.length_cons]
          rw [parse_srtF_fuel n rest2 h2,
            parse_srtF_fuel (rest2.length + 1) rest2 (by omega)]
        | [t1] =>
          dsimp only
          simp only [List.length_cons]
          rw [parse_srtF_fuel n rest2 h2,
            parse_srtF_fuel (rest2.length + 1) rest2 (by omega)]
        | t1 :: t2 :: t3 :: ts =>
          dsimp only
          simp only [List.length_cons]
          rw [parse_srtF_fuel n rest2 h2,
            parse_srtF_fuel (rest2.length + 1) rest2 (by omega)]
    · simp only [Bool.not_eq_true] at hd
      simp only [hd, Bool.false_eq_true, if_false]
      rw [parse_srtF_fuel n rest hrest, parse_srtF_fuel rest.length rest le_rfl]
  termination_by _ lines => lines.length
  decreasing_by
    all_goals simp
    all_goals try have h9 : (afterText rest2).length ≤ rest2.length := afterText_length_le rest2
    all_goals omega

theorem parse_srtL_nil : parse_srtL [] = .ok [] := rfl

theorem parse_srtL_nondigit (l : PStr) (rest : List PStr)
    (h : ¬ isDigitStr (pstrip l)) : parse_srtL (l :: rest) = parse_srtL rest := by
  simp only [Bool.not_eq_true] at h
  show parse_srtF (rest.length + 1) (l :: rest) = parse_srtL rest
  simp only [parse_srtF, h, Bool.false_eq_true, if_false]
  exact parse_srtF_fuel rest.length rest le_rfl

theorem parse_srtL_digit_last (l : PStr) (h : isDigitStr (pstrip l)) :
    parse_srtL [l] = .error .indexError := by
  show parse_srtF 1 [l] = _
  simp [parse_srtF, h]

theorem parse_srtL_digit_two (l tl : PStr) (rest2 : List PStr) (t1 t2 : PStr)
    (h : isDigitStr (pstrip l)) (hsp : splitArrow (pstrip tl) = [t1, t2]) :
    parse_srtL (l :: tl :: rest2) =
      (parse_srtL (afterText rest2)).map
        (fun subs => (parse_time (pstrip t1) "srt", parse_time (pstrip t2) "srt",
          gatherText rest2) :: subs) := by
  show parse_srtF (rest2.length + 1 + 1) (l :: tl :: rest2) = _
  simp only [parse_srtF, h, if_true, hsp]
  rw [parse_srtF_fuel (rest2.length + 1) (afterText rest2)
    (le_trans (afterText_length_le rest2) (by omega))]
  cases parse_srtL (afterText rest2) <;> rfl

theorem parse_srtL_digit_other (l tl : PStr) (rest2 : List PStr)
    (h : isDigitStr (pstrip l)) (hsp : ∀ t1 t2, splitArrow (pstrip tl) ≠ [t1, t2]) :
    parse_srtL (l :: tl :: rest2) = parse_srtL rest2 := by
  show parse_srtF (rest2.length + 1 + 1) (l :: tl :: rest2) = _
  simp only [parse_srtF, h, if_true]
  have hf := parse_srtF_fuel (rest2.length + 1) rest2 (by omega)
  match hs : splitArrow (pstrip tl) with
  | [t1, t2] => exact absurd hs (hsp t1 t2)
  | [] => exact hf
  | [t1] => exact hf
  | t1 :: t2 :: t3 :: ts => exact hf

theorem parse_vttF_fuel : ∀ (n : ℕ) (lines : List PStr), lines.length ≤ n →
    parse_vttF n lines = parse_vttL lines
  | 0, [], _ => rfl
  | _ + 1, [], _ => rfl
  | 0, _ :: _, h => absurd h (by simp)
  | n + 1, l :: rest, h => by
    have hrest : rest.length ≤ n := by simp at h; omega
    simp only [parse_vttL, List.length_cons, parse_vttF]
    by_cases ha : containsArrow l
    · simp only [ha, if_true]
      match hsp : splitArrow (pstrip l) with
      | [t1, t2] =>
        dsimp only
        rw [parse_vttF_fuel n (afterText rest)
            (le_trans (afterText_length_le rest) hrest),
          parse_vttF_fuel rest.length (afterText rest) (afterText_length_le rest)]
      | [] =>
        dsimp only
        rw [parse_vttF_fuel n rest hrest, parse_vttF_fuel rest.length rest le_rfl]
      | [t1] =>
        dsimp only
        rw [parse_vttF_fuel n rest hrest, parse_vttF_fuel rest.length rest le_rfl]
      | t1 :: t2 :: t3 :: ts =>
        dsimp only
        rw [parse_vttF_fuel n rest hrest, parse_vttF_fuel rest.length rest le_rfl]
    · simp only [Bool.not_eq_true] at ha
      simp only [ha, Bool.false_eq_true, if_false]
      rw [parse_vttF_fuel n rest hrest, parse_vttF_fuel rest.length rest le_rfl]
  termination_by _ lines => lines.length
  decreasing_by
    all_goals simp
    all_goals try have h9 : (afterText rest).length ≤ rest.length := afterText_length_le rest
    all_goals omega

theorem parse_vttL_nil : parse_vttL [] = [] := rfl

theorem parse_vttL_noarrow (l : PStr) (rest : List PStr)
    (h : ¬ containsArrow l) : parse_vttL (l :: rest) = parse_vttL rest := by
  simp only [Bool.not_eq_true] at h
  show parse_vttF (rest.length + 1) (l :: rest) = parse_vttL rest
  simp only [parse_vttF, h, Bool.false_eq_true, if_false]
  exact parse_vttF_fuel rest.length rest le_rfl

theorem parse_vttL_arrow_two (l : PStr) (rest : List PStr) (t1 t2 : PStr)
    (h : containsArrow l) (hsp : splitArrow (pstrip l) = [t1, t2]) :
    parse_vttL (l :: rest) =
      (parse_time (pstrip t1) "vtt", parse_time (pstrip t2) "vtt", gatherText rest) ::
        parse_vttL (afterText rest) := by
  show parse_vttF (rest.length + 1) (l :: rest) = _
  simp only [parse_vttF, h, if_true, hsp]
  rw [parse_vttF_fuel rest.length (afterText rest) (afterText_length_le rest)]

theorem parse_vttL_arrow_other (l : PStr) (rest : List PStr)
    (h : containsArrow l) (hsp : ∀ t1 t2, splitArrow (pstrip l) ≠ [t1, t2]) :
    parse_vttL (l :: rest) = parse_vttL rest := by
  show parse_vttF (rest.length + 1) (l :: rest) = _
  simp only [parse_vttF, h, if_true]
  have hf := parse_vttF_fuel rest.length rest le_rfl
  match hs : splitArrow (pstrip l) with
  | [t1, t2] => exact absurd hs (hsp t1 t2)
  | [] => exact hf
  | [t1] => exact hf
  | t1 :: t2 :: t3 :: ts => exact hf

theorem lrcMatchHead_len (s : PStr) (t : ℕ × ℕ × ℕ) (r : PStr)
    (h : lrcMatchHead s = some (t, r)) : r.length < s.length := by
  rw [lrcMatchHead.eq_def] at h
  split at h
  · exact absurd h (by simp)
  · rename_i c0 r0
    split at h
    case isFalse => exact absurd h (by simp)
    rcases hspan1 : spanDigits r0 with ⟨d1, r1⟩
    rw [hspan1] at h
    dsimp only at h
    split at h
    · exact absurd h (by simp)
    split at h
    · exact absurd h (by simp)
    rename_i hn1 c1 r2
    split at h
    case isFalse => exact absurd h (by simp)
    rcases hspan2 : spanDigits r2 with ⟨d2, r3⟩
    rw [hspan2] at h
    dsimp only at h
    split at h
    · exact absurd h (by simp)
    split at h
    · exact absurd h (by simp)
    rename_i hn2 c2 r4
    split at h
    case isFalse => exact absurd h (by simp)
    rcases hspan3 : spanDigits r4 with ⟨d3, r5⟩
    rw [hspan3] at h
    dsimp only at h
    split at h
    · exact absurd h (by simp)
    split at h
    · exact absurd h (by simp)
    rename_i hn3 c3 r6
    split at h
    case isFalse => exact absurd h (by simp)
    injection h with h
    rw [Prod.mk.injEq] at h
    obtain ⟨-, rfl⟩ := h
    have k1 : r2.length + 1 ≤ r0.length := by
      have hd := length_dropWhileC_le Char.isDigit r0
      have e : List.dropWhile Char.isDigit r0 = c1 :: r2 := by
        have := congrArg Prod.snd hspan1
        simpa [spanDigits] using this
      rw [e] at hd
      simpa using hd
    have k2 : r4.length + 1 ≤ r2.length := by
      have hd := length_dropWhileC_le Char.isDigit r2
      have e : List.dropWhile Char.isDigit r2 = c2 :: r4 := by
        have := congrArg Prod.snd hspan2
        simpa [spanDigits] using this
      rw [e] at hd
      simpa using hd
    have k3 : r6.length + 1 ≤ r4.length := by
      have hd := length_dropWhileC_le Char.isDigit r4
      have e : List.dropWhile Char.isDigit r4 = c3 :: r6 := by
        have := congrArg Prod.snd hspan3
        simpa [spanDigits] using this
      rw [e] at hd
      simpa using hd
    simp only [List.length_cons]
    omega

theorem lrcScanF_fuel : ∀ (n : ℕ) (s : PStr), s.length ≤ n → lrcScanF n s = lrcScan s
  | 0, [], _ => rfl
  | _ + 1, [], _ => rfl
  | 0, _ :: _, h => absurd h (by simp)
  | n + 1, c :: cs, h => by
    have hcs : cs.length ≤ n := by simp at h; omega
    simp only [lrcScan, List.length_cons, lrcScanF]
    match hm : lrcMatchHead (c :: cs) with
    | some (tag, rest) =>
      dsimp only
      have hlen := lrcMatchHead_len _ _ _ hm
      simp only [List.length_cons] at hlen
      rw [lrcScanF_fuel n rest (by omega), lrcScanF_fuel cs.length rest (by omega)]
    | none =>
      dsimp only
      rw [lrcScanF_fuel n cs hcs, lrcScanF_fuel cs.length cs le_rfl]
  termination_by _ s => s.length
  decreasing_by
    all_goals simp_all
    all_goals omega

theorem lrcScan_nil : lrcScan [] = ([], []) := rfl

theorem lrcScan_match (c : Char) (cs : PStr) (tag : ℕ × ℕ × ℕ) (rest : PStr)
    (hm : lrcMatchHead (c :: cs) = some (tag, rest)) :
    lrcScan (c :: cs) = (tag :: (lrcScan rest).1, (lrcScan rest).2) := by
  show lrcScanF (cs.length + 1) (c :: cs) = _
  simp only [lrcScanF, hm]
  have hlen := lrcMatchHead_len _ _ _ hm
  simp only [List.length_cons] at hlen
  rw [lrcScanF_fuel cs.length rest (by omega)]

theorem lrcScan_nomatch (c : Char) (cs : PStr)
    (hm : lrcMatchHead (c :: cs) = none) :
    lrcScan (c :: cs) = ((lrcScan cs).1, c :: (lrcScan cs).2) := by
  show lrcScanF (cs.length + 1) (c :: cs) = _
  simp only [lrcScanF, hm]
  rw [lrcScanF_fuel cs.length cs le_rfl]

/-! ## Dictionary (insertion-ordered association list) lemmas -/

/-- The keys of the association list, in insertion order. -/
def keysOf (m : List (ℚ × PStr)) : List ℚ := m.map Prod.fst

theorem mem_keysOf_iff_any (m : List (ℚ × PStr)) (k : ℚ) :
    k ∈ keysOf m ↔ m.any (fun p => decide (p.1 = k)) := by
  rw [List.any_eq_true]
  constructor
  · intro h
    rcases List.mem_map.mp h with ⟨p, hp, he⟩
    exact ⟨p, hp, by simp [he]⟩
  · rintro ⟨p, hp, he⟩
    simp at he
    exact List.mem_map.mpr ⟨p, hp, he⟩

theorem dset_of_mem (m : List (ℚ × PStr)) (k : ℚ) (v : PStr) (h : k ∈ keysOf m) :
    dset m k v = m.map (fun p => if p.1 = k then (k, v) else p) := by
  rw [dset, if_pos ((mem_keysOf_iff_any m k).mp h)]

theorem dset_of_not_mem (m : List (ℚ × PStr)) (k : ℚ) (v : PStr) (h : k ∉ keysOf m) :
    dset m k v = m ++ [(k, v)] := by
  rw [dset, if_neg]
  intro hc
  exact h ((mem_keysOf_iff_any m k).mpr hc)

theorem dget_cons_pos (p : ℚ × PStr) (m : List (ℚ × PStr)) (k : ℚ) (h : p.1 = k) :
    dget (p :: m) k = some p.2 := by
  unfold dget
  rw [List.find?_cons_of_pos _ (by simp [h])]
  rfl

theorem dget_cons_neg (p : ℚ × PStr) (m : List (ℚ × PStr)) (k : ℚ) (h : p.1 ≠ k) :
    dget (p :: m) k = dget m k := by
  unfold dget
  rw [List.find?_cons_of_neg _ (by simp [h])]

theorem keysOf_dset (m : List (ℚ × PStr)) (k : ℚ) (v : PStr) :
    keysOf (dset m k v) = if k ∈ keysOf m then keysOf m else keysOf m ++ [k] := by
  by_cases h : k ∈ keysOf m
  · rw [dset_of_mem m k v h, if_pos h]
    simp only [keysOf, List.map_map]
    apply List.map_congr_left
    intro p _
    by_cases hp : p.1 = k
    · simp [hp]
    · simp [hp]
  · rw [dset_of_not_mem m k v h, if_neg h]
    simp [keysOf]

theorem dget_mapRepl_self (m : List (ℚ × PStr)) (k : ℚ) (v : PStr) (h : k ∈ keysOf m) :
    dget (m.map fun p => if p.1 = k then (k, v) else p) k = some v := by
  induction m with
  | nil => simp [keysOf] at h
  | cons p m ih =>
    rw [List.map_cons]
    by_cases hp : p.1 = k
    · rw [if_pos hp]
      exact dget_cons_pos _ _ _ rfl
    · rw [if_neg hp, dget_cons_neg _ _ _ hp]
      apply ih
      simp [keysOf] at h ⊢
      rcases h with h | h
      · exact absurd h.symm hp
      · exact h

theorem dget_mapRepl_ne (m : List (ℚ × PStr)) (k k2 : ℚ) (v : PStr) (h : k2 ≠ k) :
    dget (m.map fun p => if p.1 = k then (k, v) else p) k2 = dget m k2 := by
  induction m with
  | nil => rfl
  | cons p m ih =>
    rw [List.map_cons]
    by_cases hp : p.1 = k
    · rw [if_pos hp, dget_cons_neg _ _ _ (fun e => h e.symm),
        dget_cons_neg _ _ _ (fun e => h (hp ▸ e).symm)]
      exact ih
    · rw [if_neg hp]
      by_cases hp2 : p.1 = k2
      · rw [dget_cons_pos _ _ _ hp2, dget_cons_pos _ _ _ hp2]
      · rw [dget_cons_neg _ _ _ hp2, dget_cons_neg _ _ _ hp2]
        exact ih

theorem dget_append_self (m : List (ℚ × PStr)) (k : ℚ) (v : PStr) (h : k ∉ keysOf m) :
    dget (m ++ [(k, v)]) k = some v := by
  induction m with
  | nil => exact dget_cons_pos _ _ _ rfl
  | cons p m ih =>
    rw [List.cons_append, dget_cons_neg]
    · apply ih
      intro hc
      exact h (by simp [keysOf] at hc ⊢; exact Or.inr hc)
    · intro hc
      exact h (by simp [keysOf, hc])

theorem dget_append_ne (m : List (ℚ × PStr)) (k k2 : ℚ) (v : PStr) (h : k2 ≠ k) :
    dget (m ++ [(k, v)]) k2 = dget m k2 := by
  induction m with
  | nil =>
    rw [List.nil_append, dget_cons_neg _ _ _ (fun e => h e.symm)]
  | cons p m ih =>
    rw [List.cons_append]
    by_cases hp2 : p.1 = k2
    · rw [dget_cons_pos _ _ _ hp2, dget_cons_pos _ _ _ hp2]
    · rw [dget_cons_neg _ _ _ hp2, dget_cons_neg _ _ _ hp2]
      exact ih

theorem dget_dset_self (m : List (ℚ × PStr)) (k : ℚ) (v : PStr) :
    dget (dset m k v) k = some v := by
  by_cases h : k ∈ keysOf m
  · rw [dset_of_mem _ _ _ h]
    exact dget_mapRepl_self _ _ _ h
  · rw [dset_of_not_mem _ _ _ h]
    exact dget_append_self _ _ _ h

theorem dget_dset_ne (m : List (ℚ × PStr)) (k k2 : ℚ) (v : PStr) (h : k2 ≠ k) :
    dget (dset m k v) k2 = dget m k2 := by
  by_cases hm : k ∈ keysOf m
  · rw [dset_of_mem _ _ _ hm]
    exact dget_mapRepl_ne _ _ _ _ h
  · rw [dset_of_not_mem _ _ _ hm]
    exact dget_append_ne _ _ _ _ h

theorem nodup_keysOf_dset (m : List (ℚ × PStr)) (k : ℚ) (v : PStr)
    (h : (keysOf m).Nodup) : (keysOf (dset m k v)).Nodup := by
  rw [keysOf_dset]
  by_cases hm : k ∈ keysOf m
  · rwa [if_pos hm]
  · rw [if_neg hm]
    exact h.append (List.nodup_singleton k) (by simp [List.disjoint_singleton, hm])

theorem nodup_keysOf_foldl_dset (txt : PStr) :
    ∀ (tags : List (ℕ × ℕ × ℕ)) (m : List (ℚ × PStr)), (keysOf m).Nodup →
      (keysOf (tags.foldl (fun acc tag => dset acc (tagSecs tag) txt) m)).Nodup
  | [], _, h => h
  | tag :: tags, m, h =>
    nodup_keysOf_foldl_dset txt tags _ (nodup_keysOf_dset _ _ _ h)

theorem nodup_keysOf_lrcLineStep (m : List (ℚ × PStr)) (line : PStr)
    (h : (keysOf m).Nodup) : (keysOf (lrcLineStep m line)).Nodup := by
  unfold lrcLineStep
  rcases hscan : lrcScan (pstrip line) with ⟨tags, removed⟩
  by_cases hb : (pstrip line).isEmpty
  · simpa [hb] using h
  · simp only [hb, Bool.false_eq_true, if_false, hscan]
    by_cases ht : tags.isEmpty
    · simpa [ht] using h
    · simp only [ht, Bool.false_eq_true, if_false]
      exact nodup_keysOf_foldl_dset _ _ _ h

theorem nodup_keysOf_lrcMap (lines : List PStr) : (keysOf (lrcMap lines)).Nodup := by
  have main : ∀ (ls : List PStr) (m : List (ℚ × PStr)), (keysOf m).Nodup →
      (keysOf (ls.foldl lrcLineStep m)).Nodup := by
    intro ls
    induction ls with
    | nil => intro m h; exact h
    | cons x ls ih =>
      intro m h
      exact ih _ (nodup_keysOf_lrcLineStep _ _ h)
  exact main lines [] (by simp [keysOf])

/-! ## Per-line views of the lrc loop -/

/-- The tags of a line, as `parse_lrc` sees them. -/
def lineTags (x : PStr) : List (ℕ × ℕ × ℕ) := (lrcScan (pstrip x)).1

/-- The tag-free text of a line, as `parse_lrc` stores it. -/
def lineText (x : PStr) : PStr := pstrip (lrcScan (pstrip x)).2

/-- The seconds values of a line's tags. -/
def lineSecs (x : PStr) : List ℚ := (lineTags x).map tagSecs

theorem lrcLineStep_eq (m : List (ℚ × PStr)) (line : PStr) :
    lrcLineStep m line =
      if lineTags line = [] then m
      else (lineTags line).foldl
        (fun acc tag => dset acc (tagSecs tag) (lineText line)) m := by
  unfold lrcLineStep lineTags lineText
  rcases hscan : lrcScan (pstrip line) with ⟨tags, removed⟩
  by_cases hb : (pstrip line).isEmpty
  · have hp : pstrip line = [] := List.isEmpty_iff.mp hb
    rw [hp, lrcScan_nil] at hscan
    injection hscan with h1 h2
    simp [hb, hp, lrcScan_nil, ← h1]
  · simp only [hb, Bool.false_eq_true, if_false, hscan]
    by_cases ht : tags.isEmpty
    · have : tags = [] := List.isEmpty_iff.mp ht
      simp [ht, this]
    · have : ¬ tags = [] := fun e => by simp [e] at ht
      simp [ht, this]

theorem dget_foldl_dset_of_not_mem (txt : PStr) (t : ℚ) :
    ∀ (tags : List (ℕ × ℕ × ℕ)) (m : List (ℚ × PStr)), t ∉ tags.map tagSecs →
      dget (tags.foldl (fun acc tag => dset acc (tagSecs tag) txt) m) t = dget m t
  | [], m, _ => rfl
  | tag :: tags, m, h => by
    have hne : t ≠ tagSecs tag := by simp at h; exact h.1
    have hrest : t ∉ tags.map tagSecs := by simp at h ⊢; exact h.2
    rw [List.foldl_cons, dget_foldl_dset_of_not_mem txt t tags _ hrest,
      dget_dset_ne _ _ _ _ hne]

theorem dget_foldl_dset_of_mem (txt : PStr) (t : ℚ) :
    ∀ (tags : List (ℕ × ℕ × ℕ)) (m : List (ℚ × PStr)), t ∈ tags.map tagSecs →
      dget (tags.foldl (fun acc tag => dset acc (tagSecs tag) txt) m) t = some txt
  | [], m, h => by simp at h
  | tag :: tags, m, h => by
    rw [List.foldl_cons]
    by_cases hrest : t ∈ tags.map tagSecs
    · exact dget_foldl_dset_of_mem txt t tags _ hrest
    · have hthis : t = tagSecs tag := by simp at h; rcases h with h | h; exact h; exact absurd (by simpa using h) hrest
      rw [dget_foldl_dset_of_not_mem txt t tags _ hrest, hthis, dget_dset_self]

theorem dget_lrcLineStep_of_mem (m : List (ℚ × PStr)) (line : PStr) (t : ℚ)
    (h : t ∈ lineSecs line) :
    dget (lrcLineStep m line) t = some (lineText line) := by
  rw [lrcLineStep_eq]
  have hne : lineTags line ≠ [] := by
    intro e
    rw [lineSecs, e] at h
    simp at h
  rw [if_neg hne]
  exact dget_foldl_dset_of_mem _ _ _ _ h

theorem dget_lrcLineStep_of_not_mem (m : List (ℚ × PStr)) (line : PStr) (t : ℚ)
    (h : t ∉ lineSecs line) :
    dget (lrcLineStep m line) t = dget m t := by
  rw [lrcLineStep_eq]
  by_cases he : lineTags line = []
  · rw [if_pos he]
  · rw [if_neg he]
    exact dget_foldl_dset_of_not_mem _ _ _ _ h

theorem dget_foldl_lines_of_none (t : ℚ) :
    ∀ (lines : List PStr) (m : List (ℚ × PStr)),
      lines.filter (fun x => decide (t ∈ lineSecs x)) = [] →
      dget (lines.foldl lrcLineStep m) t = dget m t
  | [], m, _ => rfl
  | x :: ls, m, h => by
    by_cases hx : t ∈ lineSecs x
    · rw [List.filter_cons, if_pos (decide_eq_true hx)] at h
      exact absurd h (by simp)
    · rw [List.filter_cons, if_neg (by simp [hx])] at h
      rw [List.foldl_cons, dget_foldl_lines_of_none t ls _ h,
        dget_lrcLineStep_of_not_mem _ _ _ hx]

theorem dget_foldl_lines_of_last (t : ℚ) :
    ∀ (lines : List PStr) (m : List (ℚ × PStr)) (l : PStr),
      (lines.filter (fun x => decide (t ∈ lineSecs x))).getLast? = some l →
      dget (lines.foldl lrcLineStep m) t = some (lineText l)
  | [], _, _, h => by simp at h
  | x :: ls, m, l, h => by
    by_cases hx : t ∈ lineSecs x
    · rw [List.filter_cons, if_pos (decide_eq_true hx)] at h
      match hf : ls.filter (fun x => decide (t ∈ lineSecs x)) with
      | [] =>
        rw [hf] at h
        have hxl : x = l := by
          have : (some x : Option PStr) = some l := by simpa using h
          injection this
        subst hxl
        rw [List.foldl_cons, dget_foldl_lines_of_none t ls _ hf,
          dget_lrcLineStep_of_mem _ _ _ hx]
      | y :: fl =>
        rw [hf, List.getLast?_cons_cons, ← hf] at h
        rw [List.foldl_cons]
        exact dget_foldl_lines_of_last t ls _ l h
    · rw [List.filter_cons, if_neg (by simp [hx])] at h
      rw [List.foldl_cons]
      exact dget_foldl_lines_of_last t ls _ l h

/-! ## buildCues lemmas -/

theorem buildCues_nil (m : List (ℚ × PStr)) : buildCues m [] = [] := rfl

theorem buildCues_singleton (m : List (ℚ × PStr)) (t : ℚ) :
    buildCues m [t] = [(t, t + 5, (dget m t).getD [])] := rfl

theorem buildCues_cons_cons (m : List (ℚ × PStr)) (t t2 : ℚ) (rest : List ℚ) :
    buildCues m (t :: t2 :: rest) =
      (t, t2, (dget m t).getD []) :: buildCues m (t2 :: rest) := rfl

theorem buildCues_map_fst (m : List (ℚ × PStr)) :
    ∀ ts : List ℚ, (buildCues m ts).map (fun c => c.1) = ts
  | [] => rfl
  | [t] => rfl
  | t :: t2 :: rest => by
    rw [buildCues_cons_cons, List.map_cons, buildCues_map_fst m (t2 :: rest)]

theorem buildCues_mem (m : List (ℚ × PStr)) :
    ∀ (ts : List ℚ) (c : Cue), c ∈ buildCues m ts →
      c.1 ∈ ts ∧ c.2.2 = (dget m c.1).getD []
  | [], c, h => by simp [buildCues] at h
  | [t], c, h => by
    simp only [buildCues, List.mem_singleton] at h
    subst h
    exact ⟨by simp, rfl⟩
  | t :: t2 :: rest, c, h => by
    rw [buildCues_cons_cons, List.mem_cons] at h
    rcases h with h | h
    · subst h
      exact ⟨by simp, rfl⟩
    · obtain ⟨h1, h2⟩ := buildCues_mem m (t2 :: rest) c h
      exact ⟨by simp [List.mem_cons] at h1 ⊢; tauto, h2⟩

theorem buildCues_lt (m : List (ℚ × PStr)) :
    ∀ ts : List ℚ, ts.Sorted (· < ·) → ∀ c ∈ buildCues m ts, c.1 < c.2.1
  | [], _, c, h => by simp [buildCues] at h
  | [t], _, c, h => by
    simp only [buildCues_singleton, List.mem_singleton] at h
    subst h
    simp
  | t :: t2 :: rest, hs, c, h => by
    rw [buildCues_cons_cons, List.mem_cons] at h
    rcases h with h | h
    · subst h
      exact (List.sorted_cons.mp hs).1 t2 (by simp)
    · exact buildCues_lt m (t2 :: rest) (List.sorted_cons.mp hs).2 c h

theorem buildCues_get_succ (m : List (ℚ × PStr)) :
    ∀ (ts : List ℚ) (i : ℕ) (h1 : i < (buildCues m ts).length)
      (h2 : i + 1 < (buildCues m ts).length),
      ((buildCues m ts).get ⟨i, h1⟩).2.1 = ((buildCues m ts).get ⟨i + 1, h2⟩).1
  | [], i, h1, _ => by simp [buildCues] at h1
  | [t], i, h1, h2 => by simp [buildCues] at h2
  | t :: t2 :: rest, 0, h1, h2 => by
    have hfst : ∀ (hh : 0 < (buildCues m (t2 :: rest)).length),
        ((buildCues m (t2 :: rest)).get ⟨0, hh⟩).1 = t2 := by
      intro hh
      match rest with
      | [] => rfl
      | t3 :: rest2 => rfl
    have h2m : 0 < (buildCues m (t2 :: rest)).length := by
      rw [buildCues_cons_cons, List.length_cons] at h2
      omega
    have hL : ∀ (hh1 : (0 : ℕ) < (buildCues m (t :: t2 :: rest)).length),
        ((buildCues m (t :: t2 :: rest)).get ⟨0, hh1⟩).2.1 = t2 := by
      intro hh1
      rw [List.get_of_eq (buildCues_cons_cons m t t2 rest)]
      rfl
    rw [hL h1, List.get_of_eq (buildCues_cons_cons m t t2 rest), List.get_cons_succ]
    exact (hfst _).symm
  | t :: t2 :: rest, i + 1, h1, h2 => by
    rw [List.get_of_eq (buildCues_cons_cons m t t2 rest),
      List.get_of_eq (buildCues_cons_cons m t t2 rest), List.get_cons_succ,
      List.get_cons_succ]
    apply buildCues_get_succ m (t2 :: rest) i

theorem buildCues_getLast (m : List (ℚ × PStr)) :
    ∀ (ts : List ℚ) (c : Cue), (buildCues m ts).getLast? = some c →
      c.2.1 = c.1 + 5
  | [], c, h => by simp [buildCues] at h
  | [t], c, h => by
    rw [buildCues_singleton] at h
    have : ((t, t + 5, (dget m t).getD []) : Cue) = c := by simpa using h
    subst this
    rfl
  | t :: t2 :: rest, c, h => by
    rw [buildCues_cons_cons] at h
    have hne : buildCues m (t2 :: rest) ≠ [] := by
      intro e
      have := buildCues_map_fst m (t2 :: rest)
      rw [e] at this
      simp at this
    match hb : buildCues m (t2 :: rest) with
    | [] => exact absurd hb hne
    | y :: ys =>
      rw [hb, List.getLast?_cons_cons, ← hb] at h
      exact buildCues_getLast m (t2 :: rest) c h

theorem sorted_lt_of_le_nodup (l : List ℚ) (hs : l.Sorted (· ≤ ·)) (hn : l.Nodup) :
    l.Sorted (· < ·) :=
  (hs.and hn).imp fun h => lt_of_le_of_ne h.1 h.2

theorem parse_lrc_sorted_times (lines : List PStr) :
    ((keysOf (lrcMap lines)).insertionSort (· ≤ ·)).Sorted (· < ·) := by
  apply sorted_lt_of_le_nodup
  · exact List.sorted_insertionSort _ _
  · exact (List.perm_insertionSort _ _).nodup_iff.mpr (nodup_keysOf_lrcMap lines)

theorem parse_lrc_eq (lines : List PStr) :
    parse_lrc lines =
      ("lrc", buildCues (lrcMap lines) ((keysOf (lrcMap lines)).insertionSort (· ≤ ·))) :=
  rfl


/-! ## Claim theorems: lrc structure (C7, C8, C10) -/

/-- The two-line lrc document of the spec's concrete scenario. -/
def lrcExampleLines : List PStr := [ofStr "[00:01.00]Line A", ofStr "[00:05.00]Line B"]

/-- The two-line lrc document with a duplicated timestamp tag. -/
def lrcDupLines : List PStr := [ofStr "[00:02.00]first", ofStr "[00:02.00]second"]

/-- C7: for every LRC input, `parse_lrc` returns the cue list sorted
strictly ascending by start time; each cue's end is the next cue's start
and the final cue's end is its start plus 5 seconds; and the spec's
concrete two-line example yields exactly the cues
`(1, 5, "Line A")` and `(5, 10, "Line B")`. -/
theorem C7_parse_lrc_structure (lines : List PStr) :
    ((parse_lrc lines).2.map fun c => c.1).Sorted (· < ·) ∧
    (∀ (i : ℕ) (h1 : i < (parse_lrc lines).2.length)
        (h2 : i + 1 < (parse_lrc lines).2.length),
      ((parse_lrc lines).2.get ⟨i, h1⟩).2.1 = ((parse_lrc lines).2.get ⟨i + 1, h2⟩).1) ∧
    (∀ c : Cue, (parse_lrc lines).2.getLast? = some c → c.2.1 = c.1 + 5) ∧
    parse_lrc lrcExampleLines =
      ("lrc", [(1, 5, ofStr "Line A"), (5, 10, ofStr "Line B")]) := by
  refine ⟨?_, ?_, ?_, by decide⟩
  · show ((buildCues (lrcMap lines)
      ((keysOf (lrcMap lines)).insertionSort (· ≤ ·))).map fun c => c.1).Sorted (· < ·)
    rw [buildCues_map_fst]
    exact parse_lrc_sorted_times lines
  · intro i h1 h2
    exact buildCues_get_succ (lrcMap lines) _ i h1 h2
  · intro c hc
    exact buildCues_getLast (lrcMap lines) _ c hc

/-- Witness for C7 at the spec's concrete example. -/
theorem C7_parse_lrc_structure_witness :
    ((parse_lrc lrcExampleLines).2.map fun c => c.1).Sorted (· < ·) ∧
    ((parse_lrc lrcExampleLines).2.get ⟨0, by decide⟩).2.1 =
      ((parse_lrc lrcExampleLines).2.get ⟨1, by decide⟩).1 ∧
    (∀ c : Cue, (parse_lrc lrcExampleLines).2.getLast? = some c → c.2.1 = c.1 + 5) ∧
    parse_lrc lrcExampleLines =
      ("lrc", [(1, 5, ofStr "Line A"), (5, 10, ofStr "Line B")]) :=
  ⟨(C7_parse_lrc_structure lrcExampleLines).1,
    (C7_parse_lrc_structure lrcExampleLines).2.1 0 (by decide) (by decide),
    (C7_parse_lrc_structure lrcExampleLines).2.2.1,
    (C7_parse_lrc_structure lrcExampleLines).2.2.2⟩

/-- C8: when the same timestamp occurs on several lines of an LRC input,
the text stored for that timestamp is the text of the line appearing
latest in file order (duplicates overwrite, they do not accumulate). -/
theorem C8_lrc_duplicate_last_wins (lines : List PStr) (t e : ℚ) (txt : PStr)
    (hmem : (t, e, txt) ∈ (parse_lrc lines).2) (l : PStr)
    (hlast : (lines.filter fun x => decide (t ∈ lineSecs x)).getLast? = some l) :
    txt = lineText l := by
  have hmem2 : ((t, e, txt) : Cue) ∈
      buildCues (lrcMap lines) ((keysOf (lrcMap lines)).insertionSort (· ≤ ·)) := hmem
  obtain ⟨-, htxt⟩ := buildCues_mem _ _ _ hmem2
  have hget := dget_foldl_lines_of_last t lines [] l hlast
  have hm : lrcMap lines = lines.foldl lrcLineStep [] := rfl
  rw [show txt = ((t, e, txt) : Cue).2.2 from rfl, htxt, hm, hget]
  rfl

/-- Witness for C8 at a concrete duplicated-timestamp input. -/
theorem C8_lrc_duplicate_last_wins_witness :
    ofStr "second" = lineText (ofStr "[00:02.00]second") :=
  C8_lrc_duplicate_last_wins lrcDupLines 2 7 (ofStr "second") (by decide)
    (ofStr "[00:02.00]second") (by decide)

/-- C10: every cue produced by `parse_lrc` has strictly positive length:
`start < end` (distinct sorted timestamps for non-final cues, `start + 5`
for the final one). -/
theorem C10_lrc_start_lt_end (lines : List PStr) (c : Cue)
    (hc : c ∈ (parse_lrc lines).2) : c.1 < c.2.1 := by
  have hc2 : c ∈
      buildCues (lrcMap lines) ((keysOf (lrcMap lines)).insertionSort (· ≤ ·)) := hc
  exact buildCues_lt (lrcMap lines) _ (parse_lrc_sorted_times lines) c hc2

/-- Witness for C10 at the concrete example. -/
theorem C10_lrc_start_lt_end_witness : ((1 : ℚ), (5 : ℚ), ofStr "Line A").1 <
    ((1 : ℚ), (5 : ℚ), ofStr "Line A").2.1 :=
  C10_lrc_start_lt_end lrcExampleLines _ (by decide)


/-! ## Digit characters, padding, and digit values -/

theorem digitChar_isDigit (d : ℕ) (h : d ≤ 9) : (Nat.digitChar d).isDigit := by
  interval_cases d <;> decide

theorem digitChar_toNat (d : ℕ) (h : d ≤ 9) : (Nat.digitChar d).toNat = 48 + d := by
  interval_cases d <;> decide

theorem ne_of_isDigit_of_not (c c2 : Char) (h : c.isDigit) (h2 : ¬ c2.isDigit) :
    c ≠ c2 := fun e => h2 (e ▸ h)

theorem isPySpace_eq_false_of_isDigit (c : Char) (h : c.isDigit) :
    isPySpace c = false := by
  by_contra hc
  simp only [Bool.not_eq_false] at hc
  simp only [isPySpace, Bool.or_eq_true, beq_iff_eq] at hc
  rcases hc with ((((rfl | rfl) | rfl) | rfl) | rfl) | rfl <;> exact absurd h (by decide)

theorem natDigits_lt10 (n : ℕ) (h : n < 10) : natDigits n = [Nat.digitChar n] := by
  unfold natDigits natDigitsF
  rw [if_pos h]

theorem natDigits_two (n : ℕ) (h1 : 10 ≤ n) (h2 : n ≤ 99) :
    natDigits n = [Nat.digitChar (n / 10), Nat.digitChar (n % 10)] := by
  obtain ⟨k, rfl⟩ : ∃ k, n = k + 1 := ⟨n - 1, by omega⟩
  show natDigitsF (k + 2) (k + 1) = _
  rw [natDigitsF, if_neg (by omega), natDigitsF, if_pos (by omega)]
  rfl

theorem natDigits_three (n : ℕ) (h1 : 100 ≤ n) (h2 : n ≤ 999) :
    natDigits n =
      [Nat.digitChar (n / 100), Nat.digitChar (n / 10 % 10), Nat.digitChar (n % 10)] := by
  obtain ⟨k, rfl⟩ : ∃ k, n = k + 2 := ⟨n - 2, by omega⟩
  show natDigitsF (k + 3) (k + 2) = _
  rw [natDigitsF, if_neg (by omega), natDigitsF, if_neg (by omega),
    natDigitsF, if_pos (by omega)]
  have e : (k + 2) / 10 / 10 = (k + 2) / 100 := by
    rw [Nat.div_div_eq_div_mul]
  rw [e]
  rfl

theorem padNat_two (n : ℕ) (h : n ≤ 99) :
    padNat 2 n = [Nat.digitChar (n / 10), Nat.digitChar (n % 10)] := by
  by_cases h10 : n < 10
  · rw [padNat, natDigits_lt10 n h10]
    have e1 : n / 10 = 0 := by omega
    have e2 : n % 10 = n := by omega
    rw [e1, e2]
    rfl
  · rw [padNat, natDigits_two n (by omega) h]
    rfl

theorem padNat_three (n : ℕ) (h : n ≤ 999) :
    padNat 3 n =
      [Nat.digitChar (n / 100), Nat.digitChar (n / 10 % 10), Nat.digitChar (n % 10)] := by
  by_cases h10 : n < 10
  · rw [padNat, natDigits_lt10 n h10]
    have e1 : n / 100 = 0 := by omega
    have e2 : n / 10 % 10 = 0 := by omega
    have e3 : n % 10 = n := by omega
    rw [e1, e2, e3]
    rfl
  · by_cases h100 : n < 100
    · rw [padNat, natDigits_two n (by omega) (by omega)]
      have e1 : n / 100 = 0 := by omega
      have e2 : n / 10 % 10 = n / 10 := by omega
      rw [e1, e2]
      rfl
    · rw [padNat, natDigits_three n (by omega) h]
      rfl

theorem mem_padNat_two_isDigit (n : ℕ) (h : n ≤ 99) :
    ∀ c ∈ padNat 2 n, c.isDigit := by
  rw [padNat_two n h]
  intro c hc
  simp only [List.mem_cons, List.not_mem_nil, or_false] at hc
  rcases hc with rfl | rfl
  · exact digitChar_isDigit _ (by omega)
  · exact digitChar_isDigit _ (by omega)

theorem mem_padNat_three_isDigit (n : ℕ) (h : n ≤ 999) :
    ∀ c ∈ padNat 3 n, c.isDigit := by
  rw [padNat_three n h]
  intro c hc
  simp only [List.mem_cons, List.not_mem_nil, or_false] at hc
  rcases hc with rfl | rfl | rfl
  · exact digitChar_isDigit _ (by omega)
  · exact digitChar_isDigit _ (by omega)
  · exact digitChar_isDigit _ (by omega)

theorem digitsVal_padNat_two (n : ℕ) (h : n ≤ 99) : digitsVal (padNat 2 n) = n := by
  rw [padNat_two n h]
  show (0 * 10 + ((Nat.digitChar (n / 10)).toNat - 48)) * 10 +
    ((Nat.digitChar (n % 10)).toNat - 48) = n
  rw [digitChar_toNat _ (by omega), digitChar_toNat _ (by omega)]
  omega

theorem digitsVal_padNat_three (n : ℕ) (h : n ≤ 999) : digitsVal (padNat 3 n) = n := by
  rw [padNat_three n h]
  show ((0 * 10 + ((Nat.digitChar (n / 100)).toNat - 48)) * 10 +
    ((Nat.digitChar (n / 10 % 10)).toNat - 48)) * 10 +
    ((Nat.digitChar (n % 10)).toNat - 48) = n
  rw [digitChar_toNat _ (by omega), digitChar_toNat _ (by omega),
    digitChar_toNat _ (by omega)]
  omega

/-! ## spanDigits on a digit run followed by a non-digit -/

/-- The head of `r`, when present, is not a digit. -/
def headNotDigit (r : PStr) : Prop := ∀ c, r.head? = some c → c.isDigit = false

theorem spanDigits_exact (d r : PStr) (hd : ∀ c ∈ d, c.isDigit)
    (hr : headNotDigit r) : spanDigits (d ++ r) = (d, r) := by
  induction d with
  | nil =>
    match r with
    | [] => rfl
    | c :: rs =>
      have hc := hr c rfl
      simp [spanDigits, List.takeWhile_cons, List.dropWhile_cons, hc]
  | cons x d ih =>
    have hx : x.isDigit := hd x (by simp)
    have hrest : ∀ c ∈ d, c.isDigit := fun c hc => hd c (by simp [hc])
    have := ih hrest
    simp only [spanDigits, Prod.mk.injEq] at this
    simp [spanDigits, List.takeWhile_cons, List.dropWhile_cons, hx, this.1, this.2]


/-! ## Matcher lemmas: canonical inputs and completeness -/

theorem headNotDigit_cons (a : Char) (r : PStr) (h : ¬ a.isDigit) :
    headNotDigit (a :: r) := by
  intro x hx
  simp only [List.head?_cons, Option.some.injEq] at hx
  subst hx
  simpa using h

theorem headNotDigit_nil : headNotDigit [] := by
  intro x hx
  simp at hx

theorem spanDigits_all (d : PStr) (hd : ∀ c ∈ d, c.isDigit) :
    spanDigits d = (d, []) := by
  have := spanDigits_exact d [] hd headNotDigit_nil
  simpa using this

/-- The shared SRT/VTT time pattern on an exact canonical string:
digit runs of lengths 1-2/1-2/1-2/1-3 with `:`/`:`/separator between. -/
theorem matchTimeHead_canonical (d1 d2 d3 d4 : PStr) (c : Char)
    (hd1 : ∀ x ∈ d1, x.isDigit) (h1a : 1 ≤ d1.length) (h1b : d1.length ≤ 2)
    (hd2 : ∀ x ∈ d2, x.isDigit) (h2a : 1 ≤ d2.length) (h2b : d2.length ≤ 2)
    (hd3 : ∀ x ∈ d3, x.isDigit) (h3a : 1 ≤ d3.length) (h3b : d3.length ≤ 2)
    (hd4 : ∀ x ∈ d4, x.isDigit) (h4a : 1 ≤ d4.length) (h4b : d4.length ≤ 3)
    (hc : c = ',' ∨ c = '.') :
    matchTimeHead (d1 ++ ':' :: d2 ++ ':' :: d3 ++ c :: d4) =
      some (digitsVal d1, digitsVal d2, digitsVal d3, digitsVal d4) := by
  have hcnd : ¬ c.isDigit := by rcases hc with rfl | rfl <;> decide
  rw [show d1 ++ ':' :: d2 ++ ':' :: d3 ++ c :: d4 =
    d1 ++ ':' :: (d2 ++ ':' :: (d3 ++ c :: d4)) from by simp]
  unfold matchTimeHead
  rw [spanDigits_exact d1 _ hd1 (headNotDigit_cons ':' _ (by decide))]
  dsimp only
  rw [if_neg (by omega), if_pos rfl,
    spanDigits_exact d2 _ hd2 (headNotDigit_cons ':' _ (by decide))]
  dsimp only
  rw [if_neg (by omega), if_pos rfl,
    spanDigits_exact d3 _ hd3 (headNotDigit_cons c _ hcnd)]
  dsimp only
  rw [if_neg (by omega), if_pos hc, spanDigits_all d4 hd4]
  dsimp only
  rw [if_neg (by omega), List.take_of_length_le h4b]

/-- The lrc pattern on a canonical prefix, with arbitrary remainder. -/
theorem lrcMatchHead_canonical (d1 d2 d3 : PStr) (rest : PStr)
    (hd1 : ∀ x ∈ d1, x.isDigit) (h1a : 1 ≤ d1.length) (h1b : d1.length ≤ 2)
    (hd2 : ∀ x ∈ d2, x.isDigit) (h2a : 1 ≤ d2.length) (h2b : d2.length ≤ 2)
    (hd3 : ∀ x ∈ d3, x.isDigit) (h3a : 1 ≤ d3.length) (h3b : d3.length ≤ 2) :
    lrcMatchHead ('[' :: d1 ++ ':' :: d2 ++ '.' :: d3 ++ ']' :: rest) =
      some ((digitsVal d1, digitsVal d2, digitsVal d3), rest) := by
  show lrcMatchHead ('[' :: (d1 ++ ':' :: d2 ++ '.' :: d3 ++ ']' :: rest)) = _
  rw [show d1 ++ ':' :: d2 ++ '.' :: d3 ++ ']' :: rest =
    d1 ++ ':' :: (d2 ++ '.' :: (d3 ++ ']' :: rest)) from by simp]
  rw [lrcMatchHead.eq_def]
  dsimp only
  rw [if_pos rfl,
    spanDigits_exact d1 _ hd1 (headNotDigit_cons ':' _ (by decide))]
  dsimp only
  rw [if_neg (by omega), if_pos rfl,
    spanDigits_exact d2 _ hd2 (headNotDigit_cons '.' _ (by decide))]
  dsimp only
  rw [if_neg (by omega), if_pos rfl,
    spanDigits_exact d3 _ hd3 (headNotDigit_cons ']' _ (by decide))]
  dsimp only
  rw [if_neg (by omega), if_pos rfl]



/-- Reconstruction: a `spanDigits` result decomposes its input. -/
theorem spanDigits_recon (X d r : PStr) (h : spanDigits X = (d, r)) :
    X = d ++ r ∧ ∀ c ∈ d, c.isDigit := by
  have h1 : d = X.takeWhile Char.isDigit := by
    have := congrArg Prod.fst h
    simpa [spanDigits] using this.symm
  have h2 : r = X.dropWhile Char.isDigit := by
    have := congrArg Prod.snd h
    simpa [spanDigits] using this.symm
  subst h1
  subst h2
  exact ⟨(List.takeWhile_append_dropWhile _ _).symm, fun c hc => List.mem_takeWhile_imp hc⟩

/-- Existence of a decomposition accepted by the regex
`(\d,1-2):(\d,1-2):(\d,1-2)[,.](\d,1-3)` at the start of the string. -/
def TimeShape (s : PStr) : Prop :=
  ∃ d1 d2 d3 d4 c rest, s = d1 ++ ':' :: (d2 ++ ':' :: (d3 ++ c :: (d4 ++ rest))) ∧
    (∀ x ∈ d1, x.isDigit) ∧ 1 ≤ d1.length ∧ d1.length ≤ 2 ∧
    (∀ x ∈ d2, x.isDigit) ∧ 1 ≤ d2.length ∧ d2.length ≤ 2 ∧
    (∀ x ∈ d3, x.isDigit) ∧ 1 ≤ d3.length ∧ d3.length ≤ 2 ∧
    (∀ x ∈ d4, x.isDigit) ∧ 1 ≤ d4.length ∧ d4.length ≤ 3 ∧
    (c = ',' ∨ c = '.')

/-- Existence of a decomposition accepted by the regex
`\[(\d,1-2):(\d,1-2)\.(\d,1-2)\]` at the start of the string. -/
def LrcShape (s : PStr) : Prop :=
  ∃ d1 d2 d3 rest, s = '[' :: (d1 ++ ':' :: (d2 ++ '.' :: (d3 ++ ']' :: rest))) ∧
    (∀ x ∈ d1, x.isDigit) ∧ 1 ≤ d1.length ∧ d1.length ≤ 2 ∧
    (∀ x ∈ d2, x.isDigit) ∧ 1 ≤ d2.length ∧ d2.length ≤ 2 ∧
    (∀ x ∈ d3, x.isDigit) ∧ 1 ≤ d3.length ∧ d3.length ≤ 2

theorem matchTimeHead_isSome_of_shape (s : PStr) (h : TimeShape s) :
    (matchTimeHead s).isSome := by
  obtain ⟨d1, d2, d3, d4, c, rest, rfl, hd1, h1a, h1b, hd2, h2a, h2b,
    hd3, h3a, h3b, hd4, h4a, h4b, hc⟩ := h
  have hcnd : ¬ c.isDigit := by rcases hc with rfl | rfl <;> decide
  unfold matchTimeHead
  rw [spanDigits_exact d1 _ hd1 (headNotDigit_cons ':' _ (by decide))]
  dsimp only
  rw [if_neg (by omega), if_pos rfl,
    spanDigits_exact d2 _ hd2 (headNotDigit_cons ':' _ (by decide))]
  dsimp only
  rw [if_neg (by omega), if_pos rfl,
    spanDigits_exact d3 _ hd3 (headNotDigit_cons c _ hcnd)]
  dsimp only
  rw [if_neg (by omega), if_pos hc]
  obtain ⟨x, d4t, rfl⟩ : ∃ x d4t, d4 = x :: d4t := by
    match d4, h4a with
    | x :: d4t, _ => exact ⟨x, d4t, rfl⟩
  rcases hs : spanDigits ((x :: d4t) ++ rest) with ⟨df, rf⟩
  have hdf : ¬ df.length = 0 := by
    have hx : x.isDigit := hd4 x (by simp)
    have he : df = ((x :: d4t) ++ rest).takeWhile Char.isDigit := by
      have := congrArg Prod.fst hs
      simpa [spanDigits] using this.symm
    rw [List.cons_append, List.takeWhile_cons, if_pos hx] at he
    subst he
    simp
  dsimp only
  rw [if_neg hdf]
  simp

theorem timeShape_of_matchTimeHead_isSome (s : PStr)
    (h : (matchTimeHead s).isSome) : TimeShape s := by
  obtain ⟨v, hv⟩ := Option.isSome_iff_exists.mp h
  rw [matchTimeHead.eq_def] at hv
  rcases hspan1 : spanDigits s with ⟨d1, r1⟩
  rw [hspan1] at hv
  dsimp only at hv
  obtain ⟨hs1, hall1⟩ := spanDigits_recon s d1 r1 hspan1
  split at hv
  · exact absurd hv (by simp)
  split at hv
  · exact absurd hv (by simp)
  rename_i hlen1 c1 r2
  split at hv
  case isFalse => exact absurd hv (by simp)
  case isTrue hc1 =>
    rcases hspan2 : spanDigits r2 with ⟨d2, r3⟩
    rw [hspan2] at hv
    dsimp only at hv
    obtain ⟨hs2, hall2⟩ := spanDigits_recon r2 d2 r3 hspan2
    split at hv
    · exact absurd hv (by simp)
    split at hv
    · exact absurd hv (by simp)
    rename_i hlen2 c2 r4
    split at hv
    case isFalse => exact absurd hv (by simp)
    case isTrue hc2 =>
      rcases hspan3 : spanDigits r4 with ⟨d3, r5⟩
      rw [hspan3] at hv
      dsimp only at hv
      obtain ⟨hs3, hall3⟩ := spanDigits_recon r4 d3 r5 hspan3
      split at hv
      · exact absurd hv (by simp)
      split at hv
      · exact absurd hv (by simp)
      rename_i hlen3 c3 r6
      split at hv
      case isFalse => exact absurd hv (by simp)
      case isTrue hc3 =>
        rcases hspan4 : spanDigits r6 with ⟨d4, rf⟩
        rw [hspan4] at hv
        dsimp only at hv
        obtain ⟨hs4, hall4⟩ := spanDigits_recon r6 d4 rf hspan4
        split at hv
        · exact absurd hv (by simp)
        rename_i hlen4
        subst hc1
        subst hc2
        refine ⟨d1, d2, d3, d4.take 3, c3, d4.drop 3 ++ rf, ?_, hall1,
          by omega, by omega, hall2, by omega, by omega, hall3, by omega,
          by omega, fun x hx => hall4 x (List.mem_of_mem_take hx), ?_, ?_, hc3⟩
        · rw [hs1, hs2, hs3, hs4]
          rw [← List.append_assoc (d4.take 3), List.take_append_drop]
        · rw [List.length_take]
          omega
        · rw [List.length_take]
          omega

theorem lrcShape_of_lrcMatchHead_isSome (s : PStr)
    (h : (lrcMatchHead s).isSome) : LrcShape s := by
  obtain ⟨v, hv⟩ := Option.isSome_iff_exists.mp h
  rw [lrcMatchHead.eq_def] at hv
  split at hv
  · exact absurd hv (by simp)
  rename_i c0 r0
  split at hv
  case isFalse => exact absurd hv (by simp)
  case isTrue hc0 =>
    rcases hspan1 : spanDigits r0 with ⟨d1, r1⟩
    rw [hspan1] at hv
    dsimp only at hv
    obtain ⟨hs1, hall1⟩ := spanDigits_recon r0 d1 r1 hspan1
    split at hv
    · exact absurd hv (by simp)
    split at hv
    · exact absurd hv (by simp)
    rename_i hlen1 c1 r2
    split at hv
    case isFalse => exact absurd hv (by simp)
    case isTrue hc1 =>
      rcases hspan2 : spanDigits r2 with ⟨d2, r3⟩
      rw [hspan2] at hv
      dsimp only at hv
      obtain ⟨hs2, hall2⟩ := spanDigits_recon r2 d2 r3 hspan2
      split at hv
      · exact absurd hv (by simp)
      split at hv
      · exact absurd hv (by simp)
      rename_i hlen2 c2 r4
      split at hv
      case isFalse => exact absurd hv (by simp)
      case isTrue hc2 =>
        rcases hspan3 : spanDigits r4 with ⟨d3, r5⟩
        rw [hspan3] at hv
        dsimp only at hv
        obtain ⟨hs3, hall3⟩ := spanDigits_recon r4 d3 r5 hspan3
        split at hv
        · exact absurd hv (by simp)
        split at hv
        · exact absurd hv (by simp)
        rename_i hlen3 c3 r6
        split at hv
        case isFalse => exact absurd hv (by simp)
        case isTrue hc3 =>
          subst hc0
          subst hc1
          subst hc2
          subst hc3
          exact ⟨d1, d2, d3, r6, by rw [hs1, hs2, hs3], hall1, by omega,
            by omega, hall2, by omega, by omega, hall3, by omega, by omega⟩

theorem lrcMatchHead_isSome_of_shape (s : PStr) (h : LrcShape s) :
    (lrcMatchHead s).isSome := by
  obtain ⟨d1, d2, d3, rest, rfl, hd1, h1a, h1b, hd2, h2a, h2b, hd3, h3a, h3b⟩ := h
  have := lrcMatchHead_canonical d1 d2 d3 rest hd1 h1a h1b hd2 h2a h2b hd3 h3a h3b
  rw [show ('[' :: d1 ++ ':' :: d2 ++ '.' :: d3 ++ ']' :: rest : PStr) =
    '[' :: (d1 ++ ':' :: (d2 ++ '.' :: (d3 ++ ']' :: rest))) from by simp] at this
  rw [this]
  rfl



/-! ## Rational floor arithmetic for format_time -/

theorem pyTrunc_intCast (z : ℤ) : pyTrunc ((z : ℚ)) = z := by
  unfold pyTrunc
  by_cases h : (0 : ℚ) ≤ (z : ℚ) <;> simp [h]

theorem pyTrunc_nonneg (q : ℚ) (h : 0 ≤ q) : pyTrunc q = ⌊q⌋ := if_pos h

theorem floor_div_nat (N : ℕ) (f : ℚ) (h0 : 0 ≤ f) (h1 : f < 1) (c : ℕ) (hc : 0 < c) :
    ⌊((N : ℚ) + f) / (c : ℚ)⌋ = ((N / c : ℕ) : ℤ) := by
  have hcq : (0 : ℚ) < (c : ℚ) := by exact_mod_cast hc
  have hdm : ((c : ℚ)) * ((N / c : ℕ) : ℚ) + ((N % c : ℕ) : ℚ) = (N : ℚ) := by
    exact_mod_cast congrArg (Nat.cast : ℕ → ℚ) (Nat.div_add_mod N c)
  have hr : ((N % c : ℕ) : ℚ) < (c : ℚ) := by
    exact_mod_cast Nat.mod_lt N hc
  have hr0 : (0 : ℚ) ≤ ((N % c : ℕ) : ℚ) := by positivity
  have hr1 : ((N % c : ℕ) : ℚ) + 1 ≤ (c : ℚ) := by
    have hn : N % c + 1 ≤ c := Nat.mod_lt N hc
    exact_mod_cast hn
  have hcast : (((N / c : ℕ) : ℤ) : ℚ) = ((N / c : ℕ) : ℚ) := by norm_cast
  rw [Int.floor_eq_iff]
  constructor
  · rw [le_div_iff hcq, hcast]
    nlinarith
  · rw [div_lt_iff hcq, hcast]
    nlinarith

theorem floor_natCast_add_fract (N : ℕ) (f : ℚ) (h0 : 0 ≤ f) (h1 : f < 1) :
    ⌊(N : ℚ) + f⌋ = (N : ℤ) := by
  rw [Int.floor_eq_iff]
  constructor
  · push_cast
    linarith
  · push_cast
    linarith

theorem pyMod_nat (N : ℕ) (f : ℚ) (h0 : 0 ≤ f) (h1 : f < 1) (c : ℕ) (hc : 0 < c) :
    pyMod ((N : ℚ) + f) (c : ℚ) = ((N % c : ℕ) : ℚ) + f := by
  unfold pyMod
  rw [floor_div_nat N f h0 h1 c hc]
  have hdm : ((c : ℚ)) * ((N / c : ℕ) : ℚ) + ((N % c : ℕ) : ℚ) = (N : ℚ) := by
    exact_mod_cast congrArg (Nat.cast : ℕ → ℚ) (Nat.div_add_mod N c)
  have hcast : (((N / c : ℕ) : ℤ) : ℚ) = ((N / c : ℕ) : ℚ) := by norm_cast
  rw [hcast]
  linarith

theorem fmtInt_natCast (w n : ℕ) : fmtInt w ((n : ℕ) : ℤ) = padNat w n := by
  unfold fmtInt
  rw [if_neg (not_lt.mpr (Int.natCast_nonneg n))]
  simp

theorem fmtInt_of_nonneg (w : ℕ) (z : ℤ) (h : 0 ≤ z) : fmtInt w z = padNat w z.toNat := by
  unfold fmtInt
  rw [if_neg (not_lt.mpr h)]

theorem ms_floor_bounds (f : ℚ) (h0 : 0 ≤ f) (h1 : f < 1) (c : ℕ) (hc : 0 < c) :
    0 ≤ ⌊(c : ℚ) * f⌋ ∧ ⌊(c : ℚ) * f⌋ ≤ (c : ℤ) - 1 := by
  constructor
  · exact Int.floor_nonneg.mpr (by positivity)
  · have : ⌊(c : ℚ) * f⌋ < (c : ℤ) := by
      rw [Int.floor_lt]
      push_cast
      nlinarith [show (0:ℚ) < (c:ℚ) from by exact_mod_cast hc]
    omega



theorem q3600 : ((3600 : ℕ) : ℚ) = (3600 : ℚ) := by norm_num

theorem q60 : ((60 : ℕ) : ℚ) = (60 : ℚ) := by norm_num

/-- `format_time` on a nonnegative value `N + f` (integer part `N`,
fractional part `f`), srt target: zero-padded sexagesimal fields with a
comma and the truncated milliseconds. -/
theorem format_time_srt (N : ℕ) (f : ℚ) (h0 : 0 ≤ f) (h1 : f < 1) :
    format_time ((N : ℚ) + f) "srt" =
      fmtInt 2 ((N / 3600 : ℕ) : ℤ) ++ ':' :: fmtInt 2 ((N % 3600 / 60 : ℕ) : ℤ) ++
        ':' :: fmtInt 2 ((N % 60 : ℕ) : ℤ) ++ ',' :: fmtInt 3 ⌊1000 * f⌋ := by
  unfold format_time pyFloorDiv
  rw [if_pos rfl]
  rw [show ((3600 : ℚ)) = ((3600 : ℕ) : ℚ) from by norm_num,
    show ((60 : ℚ)) = ((60 : ℕ) : ℚ) from by norm_num]
  rw [floor_div_nat N f h0 h1 3600 (by norm_num), pyTrunc_intCast,
    pyMod_nat N f h0 h1 3600 (by norm_num),
    pyMod_nat N f h0 h1 60 (by norm_num),
    floor_div_nat (N % 3600) f h0 h1 60 (by norm_num), pyTrunc_intCast,
    pyTrunc_nonneg (((N % 60 : ℕ) : ℚ) + f) (by positivity),
    floor_natCast_add_fract (N % 60) f h0 h1,
    pyTrunc_nonneg ((N : ℚ) + f) (by positivity),
    floor_natCast_add_fract N f h0 h1]
  have hms : ((N : ℚ) + f - ((N : ℤ) : ℚ)) * 1000 = 1000 * f := by
    push_cast
    ring
  rw [hms, pyTrunc_nonneg (1000 * f) (by positivity)]

/-- As `format_time_srt`, vtt target (dot separator). -/
theorem format_time_vtt (N : ℕ) (f : ℚ) (h0 : 0 ≤ f) (h1 : f < 1) :
    format_time ((N : ℚ) + f) "vtt" =
      fmtInt 2 ((N / 3600 : ℕ) : ℤ) ++ ':' :: fmtInt 2 ((N % 3600 / 60 : ℕ) : ℤ) ++
        ':' :: fmtInt 2 ((N % 60 : ℕ) : ℤ) ++ '.' :: fmtInt 3 ⌊1000 * f⌋ := by
  unfold format_time pyFloorDiv
  rw [if_neg (by decide), if_pos rfl]
  rw [show ((3600 : ℚ)) = ((3600 : ℕ) : ℚ) from by norm_num,
    show ((60 : ℚ)) = ((60 : ℕ) : ℚ) from by norm_num]
  rw [floor_div_nat N f h0 h1 3600 (by norm_num), pyTrunc_intCast,
    pyMod_nat N f h0 h1 3600 (by norm_num),
    pyMod_nat N f h0 h1 60 (by norm_num),
    floor_div_nat (N % 3600) f h0 h1 60 (by norm_num), pyTrunc_intCast,
    pyTrunc_nonneg (((N % 60 : ℕ) : ℚ) + f) (by positivity),
    floor_natCast_add_fract (N % 60) f h0 h1,
    pyTrunc_nonneg ((N : ℚ) + f) (by positivity),
    floor_natCast_add_fract N f h0 h1]
  have hms : ((N : ℚ) + f - ((N : ℤ) : ℚ)) * 1000 = 1000 * f := by
    push_cast
    ring
  rw [hms, pyTrunc_nonneg (1000 * f) (by positivity)]

/-- As `format_time_srt`, lrc target (minutes/seconds/centiseconds). -/
theorem format_time_lrc (N : ℕ) (f : ℚ) (h0 : 0 ≤ f) (h1 : f < 1) :
    format_time ((N : ℚ) + f) "lrc" =
      '[' :: fmtInt 2 ((N / 60 : ℕ) : ℤ) ++ ':' :: fmtInt 2 ((N % 60 : ℕ) : ℤ) ++
        '.' :: fmtInt 2 ⌊100 * f⌋ ++ [']'] := by
  unfold format_time pyFloorDiv
  rw [if_neg (by decide), if_neg (by decide), if_pos rfl]
  rw [show ((60 : ℚ)) = ((60 : ℕ) : ℚ) from by norm_num]
  rw [floor_div_nat N f h0 h1 60 (by norm_num), pyTrunc_intCast,
    pyMod_nat N f h0 h1 60 (by norm_num),
    pyTrunc_nonneg (((N % 60 : ℕ) : ℚ) + f) (by positivity),
    floor_natCast_add_fract (N % 60) f h0 h1,
    pyTrunc_nonneg ((N : ℚ) + f) (by positivity),
    floor_natCast_add_fract N f h0 h1]
  have hms : ((N : ℚ) + f - ((N : ℤ) : ℚ)) * 100 = 100 * f := by
    push_cast
    ring
  rw [hms, pyTrunc_nonneg (100 * f) (by positivity)]



theorem padNat_two_length (n : ℕ) (h : n ≤ 99) : (padNat 2 n).length = 2 := by
  rw [padNat_two n h]
  rfl

theorem padNat_three_length (n : ℕ) (h : n ≤ 999) : (padNat 3 n).length = 3 := by
  rw [padNat_three n h]
  rfl

/-- `parse_time` recovers the four fields from a canonical zero-padded
stamp, under either the srt or the vtt format tag and either separator. -/
theorem parse_time_stamp (h m s ms : ℕ) (hh : h ≤ 99) (hm : m ≤ 99) (hs : s ≤ 99)
    (hms : ms ≤ 999) (c : Char) (hc : c = ',' ∨ c = '.') (fmt : String)
    (hf : fmt = "srt" ∨ fmt = "vtt") :
    parse_time (padNat 2 h ++ ':' :: padNat 2 m ++ ':' :: padNat 2 s ++
        c :: padNat 3 ms) fmt =
      (h : ℚ) * 3600 + (m : ℚ) * 60 + (s : ℚ) + (ms : ℚ) / 1000 := by
  unfold parse_time
  rw [if_pos hf]
  rw [matchTimeHead_canonical (padNat 2 h) (padNat 2 m) (padNat 2 s) (padNat 3 ms) c
    (mem_padNat_two_isDigit h hh) (by rw [padNat_two_length h hh]; norm_num)
    (by rw [padNat_two_length h hh])
    (mem_padNat_two_isDigit m hm) (by rw [padNat_two_length m hm]; norm_num)
    (by rw [padNat_two_length m hm])
    (mem_padNat_two_isDigit s hs) (by rw [padNat_two_length s hs]; norm_num)
    (by rw [padNat_two_length s hs])
    (mem_padNat_three_isDigit ms hms) (by rw [padNat_three_length ms hms]; norm_num)
    (by rw [padNat_three_length ms hms]) hc]
  dsimp only
  rw [digitsVal_padNat_two h hh, digitsVal_padNat_two m hm,
    digitsVal_padNat_two s hs, digitsVal_padNat_three ms hms]

/-- Exact value computed by `parse_time` after `format_time`, srt/vtt. -/
theorem parse_format_val (N : ℕ) (f : ℚ) (h0 : 0 ≤ f) (h1 : f < 1)
    (hN : N < 360000) (fmt : String) (hf : fmt = "srt" ∨ fmt = "vtt") :
    parse_time (format_time ((N : ℚ) + f) fmt) fmt =
      (N : ℚ) + ((⌊(1000 : ℚ) * f⌋.toNat : ℕ) : ℚ) / 1000 := by
  have hmsb := ms_floor_bounds f h0 h1 1000 (by norm_num)
  rw [show (((1000 : ℕ) : ℚ)) = (1000 : ℚ) from by norm_num] at hmsb
  have hms999 : ⌊(1000 : ℚ) * f⌋.toNat ≤ 999 := by omega
  have hsum : ((N / 3600 : ℕ) : ℚ) * 3600 + ((N % 3600 / 60 : ℕ) : ℚ) * 60 +
      ((N % 60 : ℕ) : ℚ) = (N : ℚ) := by
    have hNid : N / 3600 * 3600 + N % 3600 / 60 * 60 + N % 60 = N := by omega
    exact_mod_cast congrArg (Nat.cast : ℕ → ℚ) hNid
  rcases hf with rfl | rfl
  · rw [format_time_srt N f h0 h1, fmtInt_natCast, fmtInt_natCast,
      fmtInt_natCast, fmtInt_of_nonneg 3 _ hmsb.1,
      parse_time_stamp _ _ _ _ (by omega) (by omega) (by omega) hms999 ','
        (Or.inl rfl) "srt" (Or.inl rfl)]
    rw [← hsum]
  · rw [format_time_vtt N f h0 h1, fmtInt_natCast, fmtInt_natCast,
      fmtInt_natCast, fmtInt_of_nonneg 3 _ hmsb.1,
      parse_time_stamp _ _ _ _ (by omega) (by omega) (by omega) hms999 '.'
        (Or.inr rfl) "vtt" (Or.inr rfl)]
    rw [← hsum]

/-- `parse_time` recovers the three fields from a canonical lrc stamp. -/
theorem parse_time_lrc_stamp (m s cs : ℕ) (hm : m ≤ 99) (hs : s ≤ 99)
    (hcs : cs ≤ 99) (rest : PStr) :
    parse_time ('[' :: padNat 2 m ++ ':' :: padNat 2 s ++ '.' :: padNat 2 cs ++
        ']' :: rest) "lrc" =
      (m : ℚ) * 60 + (s : ℚ) + (cs : ℚ) / 100 := by
  unfold parse_time
  rw [if_neg (by decide), if_pos rfl]
  rw [lrcMatchHead_canonical (padNat 2 m) (padNat 2 s) (padNat 2 cs) rest
    (mem_padNat_two_isDigit m hm) (by rw [padNat_two_length m hm]; norm_num)
    (by rw [padNat_two_length m hm])
    (mem_padNat_two_isDigit s hs) (by rw [padNat_two_length s hs]; norm_num)
    (by rw [padNat_two_length s hs])
    (mem_padNat_two_isDigit cs hcs) (by rw [padNat_two_length cs hcs]; norm_num)
    (by rw [padNat_two_length cs hcs])]
  dsimp only
  rw [digitsVal_padNat_two m hm, digitsVal_padNat_two s hs,
    digitsVal_padNat_two cs hcs]

/-- Exact value computed by `parse_time` after `format_time`, lrc. -/
theorem parse_format_val_lrc (N : ℕ) (f : ℚ) (h0 : 0 ≤ f) (h1 : f < 1)
    (hN : N < 6000) :
    parse_time (format_time ((N : ℚ) + f) "lrc") "lrc" =
      (N : ℚ) + ((⌊(100 : ℚ) * f⌋.toNat : ℕ) : ℚ) / 100 := by
  have hmsb := ms_floor_bounds f h0 h1 100 (by norm_num)
  rw [show (((100 : ℕ) : ℚ)) = (100 : ℚ) from by norm_num] at hmsb
  have hcs99 : ⌊(100 : ℚ) * f⌋.toNat ≤ 99 := by omega
  have hsum : ((N / 60 : ℕ) : ℚ) * 60 + ((N % 60 : ℕ) : ℚ) = (N : ℚ) := by
    have hNid : N / 60 * 60 + N % 60 = N := by omega
    exact_mod_cast congrArg (Nat.cast : ℕ → ℚ) hNid
  rw [format_time_lrc N f h0 h1, fmtInt_natCast, fmtInt_natCast,
    fmtInt_of_nonneg 2 _ hmsb.1,
    parse_time_lrc_stamp _ _ _ (by omega) (by omega) hcs99 []]
  rw [← hsum]



/-! ## Claim theorem: time round-trip precision (C1) -/

/-- C1: for every in-range nonnegative seconds value, formatting and
re-parsing recovers the value to within the format's precision: 1 ms for
srt and vtt (range `< 360000` s, so hours fit two digits), 10 ms for lrc
(range `< 6000` s, so minutes fit two digits). -/
theorem C1_time_roundtrip (t : ℚ) (h0 : 0 ≤ t) :
    (t < 360000 →
      |parse_time (format_time t "srt") "srt" - t| < 1 / 1000 ∧
      |parse_time (format_time t "vtt") "vtt" - t| < 1 / 1000) ∧
    (t < 6000 → |parse_time (format_time t "lrc") "lrc" - t| < 1 / 100) := by
  have hfl0 : (0 : ℤ) ≤ ⌊t⌋ := Int.floor_nonneg.mpr h0
  have hNcast : ((⌊t⌋.toNat : ℕ) : ℚ) = ((⌊t⌋ : ℤ) : ℚ) := by
    exact_mod_cast congrArg (Int.cast : ℤ → ℚ) (Int.toNat_of_nonneg hfl0)
  set N := ⌊t⌋.toNat with hNdef
  set f := t - (N : ℚ) with hfdef
  have hteq : t = (N : ℚ) + f := by rw [hfdef]; ring
  have hf0 : 0 ≤ f := by
    rw [hfdef, hNcast]
    linarith [Int.floor_le t]
  have hf1 : f < 1 := by
    rw [hfdef, hNcast]
    linarith [Int.lt_floor_add_one t]
  have hNle : (N : ℚ) ≤ t := by
    rw [hNcast]
    exact Int.floor_le t
  have key : ∀ c : ℕ, 0 < c →
      |((N : ℚ) + ((⌊(c : ℚ) * f⌋.toNat : ℕ) : ℚ) / (c : ℚ)) - ((N : ℚ) + f)| <
        1 / (c : ℚ) := by
    intro c hc
    have hcq : (0 : ℚ) < (c : ℚ) := by exact_mod_cast hc
    have h0z : (0 : ℤ) ≤ ⌊(c : ℚ) * f⌋ := Int.floor_nonneg.mpr (by positivity)
    have hcast2 : ((⌊(c : ℚ) * f⌋.toNat : ℕ) : ℚ) = ((⌊(c : ℚ) * f⌋ : ℤ) : ℚ) := by
      exact_mod_cast congrArg (Int.cast : ℤ → ℚ) (Int.toNat_of_nonneg h0z)
    have hb1 : ((⌊(c : ℚ) * f⌋ : ℤ) : ℚ) ≤ (c : ℚ) * f := Int.floor_le _
    have hb2 : (c : ℚ) * f < ((⌊(c : ℚ) * f⌋ : ℤ) : ℚ) + 1 := Int.lt_floor_add_one _
    rw [hcast2]
    have hle : ((⌊(c : ℚ) * f⌋ : ℤ) : ℚ) / (c : ℚ) ≤ f := by
      rw [div_le_iff hcq]
      linarith
    have hgt : f - ((⌊(c : ℚ) * f⌋ : ℤ) : ℚ) / (c : ℚ) < 1 / (c : ℚ) := by
      rw [sub_lt_iff_lt_add, div_add_div_same, lt_div_iff hcq]
      linarith
    rw [abs_of_nonpos (by linarith)]
    linarith
  refine ⟨fun hlt => ⟨?_, ?_⟩, fun hlt => ?_⟩
  · have hN : N < 360000 := by
      have : (N : ℚ) < 360000 := lt_of_le_of_lt hNle hlt
      exact_mod_cast this
    rw [hteq, parse_format_val N f hf0 hf1 hN "srt" (Or.inl rfl)]
    have := key 1000 (by norm_num)
    rw [show (((1000 : ℕ)) : ℚ) = (1000 : ℚ) from by norm_num] at this
    exact this
  · have hN : N < 360000 := by
      have : (N : ℚ) < 360000 := lt_of_le_of_lt hNle hlt
      exact_mod_cast this
    rw [hteq, parse_format_val N f hf0 hf1 hN "vtt" (Or.inr rfl)]
    have := key 1000 (by norm_num)
    rw [show (((1000 : ℕ)) : ℚ) = (1000 : ℚ) from by norm_num] at this
    exact this
  · have hN : N < 6000 := by
      have : (N : ℚ) < 6000 := lt_of_le_of_lt hNle hlt
      exact_mod_cast this
    rw [hteq, parse_format_val_lrc N f hf0 hf1 hN]
    have := key 100 (by norm_num)
    rw [show (((100 : ℕ)) : ℚ) = (100 : ℚ) from by norm_num] at this
    exact this

/-- Witness for C1 at `t = 7/2` seconds. -/
theorem C1_time_roundtrip_witness :
    |parse_time (format_time (7 / 2) "srt") "srt" - 7 / 2| < 1 / 1000 ∧
    |parse_time (format_time (7 / 2) "vtt") "vtt" - 7 / 2| < 1 / 1000 ∧
    |parse_time (format_time (7 / 2) "lrc") "lrc" - 7 / 2| < 1 / 100 := by
  have h := C1_time_roundtrip (7 / 2) (by norm_num)
  exact ⟨(h.1 (by norm_num)).1, (h.1 (by norm_num)).2, h.2 (by norm_num)⟩



/-! ## Claim theorems: parse_time shape behaviour (C6, corrected) -/

/-- C6 counterexample: the claim says a '.'-separated VTT-style timestamp
passed with format srt yields 0.0, but `parse_time` uses the shared
`time_pattern`, which accepts both separators: the result is 1, not 0. -/
theorem C6_counterexample : parse_time (ofStr "00:00:01.000") "srt" = 1 ∧ (1 : ℚ) ≠ 0 :=
  ⟨by decide, by norm_num⟩

/-- C6 (amended): `parse_time` with format srt or vtt accepts both `,`
and `.` as separator (the shared `time_pattern`); on every string of the
shape `d1:d2:d3<sep>d4` (digit runs of 1-2/1-2/1-2/1-3 digits) it returns
`H*3600 + M*60 + S + ms/1000` under both format tags, and it returns 0.0
exactly on the strings with no prefix accepted by the pattern; for lrc,
`[MM:SS.cc]`-prefixed strings give `M*60 + S + cs/100` and all others
give 0.0. -/
theorem C6_parse_time_amended :
    (∀ (d1 d2 d3 d4 : PStr) (c : Char) (fmt : String),
      (∀ x ∈ d1, x.isDigit) → 1 ≤ d1.length → d1.length ≤ 2 →
      (∀ x ∈ d2, x.isDigit) → 1 ≤ d2.length → d2.length ≤ 2 →
      (∀ x ∈ d3, x.isDigit) → 1 ≤ d3.length → d3.length ≤ 2 →
      (∀ x ∈ d4, x.isDigit) → 1 ≤ d4.length → d4.length ≤ 3 →
      (c = ',' ∨ c = '.') → (fmt = "srt" ∨ fmt = "vtt") →
      parse_time (d1 ++ ':' :: d2 ++ ':' :: d3 ++ c :: d4) fmt =
        (digitsVal d1 : ℚ) * 3600 + (digitsVal d2 : ℚ) * 60 + (digitsVal d3 : ℚ) +
          (digitsVal d4 : ℚ) / 1000) ∧
    (∀ (s : PStr) (fmt : String), (fmt = "srt" ∨ fmt = "vtt") → ¬ TimeShape s →
      parse_time s fmt = 0) ∧
    (∀ (d1 d2 d3 rest : PStr),
      (∀ x ∈ d1, x.isDigit) → 1 ≤ d1.length → d1.length ≤ 2 →
      (∀ x ∈ d2, x.isDigit) → 1 ≤ d2.length → d2.length ≤ 2 →
      (∀ x ∈ d3, x.isDigit) → 1 ≤ d3.length → d3.length ≤ 2 →
      parse_time ('[' :: d1 ++ ':' :: d2 ++ '.' :: d3 ++ ']' :: rest) "lrc" =
        (digitsVal d1 : ℚ) * 60 + (digitsVal d2 : ℚ) + (digitsVal d3 : ℚ) / 100) ∧
    (∀ s : PStr, ¬ LrcShape s → parse_time s "lrc" = 0) := by
  refine ⟨?_, ?_, ?_, ?_⟩
  · intro d1 d2 d3 d4 c fmt hd1 h1a h1b hd2 h2a h2b hd3 h3a h3b hd4 h4a h4b hc hf
    unfold parse_time
    rw [if_pos hf,
      matchTimeHead_canonical d1 d2 d3 d4 c hd1 h1a h1b hd2 h2a h2b hd3 h3a h3b
        hd4 h4a h4b hc]
  · intro s fmt hf hns
    unfold parse_time
    rw [if_pos hf]
    match hm : matchTimeHead s with
    | some v =>
      exact absurd (timeShape_of_matchTimeHead_isSome s (by rw [hm]; rfl)) hns
    | none => rfl
  · intro d1 d2 d3 rest hd1 h1a h1b hd2 h2a h2b hd3 h3a h3b
    unfold parse_time
    rw [if_neg (by decide), if_pos rfl,
      lrcMatchHead_canonical d1 d2 d3 rest hd1 h1a h1b hd2 h2a h2b hd3 h3a h3b]
  · intro s hns
    unfold parse_time
    rw [if_neg (by decide), if_pos rfl]
    match hm : lrcMatchHead s with
    | some v =>
      exact absurd (lrcShape_of_lrcMatchHead_isSome s (by rw [hm]; rfl)) hns
    | none => rfl

/-- Witness for C6 (amended) at concrete strings. -/
theorem C6_parse_time_amended_witness :
    parse_time (ofStr "00" ++ ':' :: ofStr "00" ++ ':' :: ofStr "01" ++
        '.' :: ofStr "500") "srt" =
      (digitsVal (ofStr "00") : ℚ) * 3600 + (digitsVal (ofStr "00") : ℚ) * 60 +
        (digitsVal (ofStr "01") : ℚ) + (digitsVal (ofStr "500") : ℚ) / 1000 ∧
    parse_time (ofStr "hello") "srt" = 0 ∧
    parse_time ('[' :: ofStr "02" ++ ':' :: ofStr "10" ++ '.' :: ofStr "50" ++
        ']' :: ofStr "line") "lrc" =
      (digitsVal (ofStr "02") : ℚ) * 60 + (digitsVal (ofStr "10") : ℚ) +
        (digitsVal (ofStr "50") : ℚ) / 100 ∧
    parse_time (ofStr "hello") "lrc" = 0 :=
  ⟨C6_parse_time_amended.1 (ofStr "00") (ofStr "00") (ofStr "01") (ofStr "500") '.'
      "srt" (by decide) (by decide) (by decide) (by decide) (by decide) (by decide)
      (by decide) (by decide) (by decide) (by decide) (by decide) (by decide)
      (Or.inr rfl) (Or.inl rfl),
    C6_parse_time_amended.2.1 (ofStr "hello") "srt" (Or.inl rfl)
      (fun h => absurd (matchTimeHead_isSome_of_shape _ h) (by decide)),
    C6_parse_time_amended.2.2.1 (ofStr "02") (ofStr "10") (ofStr "50") (ofStr "line")
      (by decide) (by decide) (by decide) (by decide) (by decide) (by decide)
      (by decide) (by decide) (by decide),
    C6_parse_time_amended.2.2.2 (ofStr "hello")
      (fun h => absurd (lrcMatchHead_isSome_of_shape _ h) (by decide))⟩



/-! ## Claim theorems: parser totality (C3, corrected) -/

theorem suffix_getLast (t L : List PStr) (hs : t <:+ L) (hne : t ≠ []) :
    t.getLast? = L.getLast? := by
  obtain ⟨pre, rfl⟩ := hs
  exact (List.getLast?_append_of_ne_nil pre hne).symm

theorem afterText_suffix (rest : List PStr) : afterText rest <:+ rest := by
  unfold afterText
  rw [List.drop_one]
  exact (List.tail_suffix _).trans (List.dropWhile_suffix _)

theorem parse_srtL_ok_of_last : ∀ (lines : List PStr),
    (∀ l, lines.getLast? = some l → ¬ isDigitStr (pstrip l)) →
    ∃ subs, parse_srtL lines = .ok subs
  | [], _ => ⟨[], rfl⟩
  | l :: rest, h => by
    by_cases hd : isDigitStr (pstrip l)
    · match rest with
      | [] => exact absurd hd (h l rfl)
      | tl :: rest2 =>
        have htrans : ∀ (t : List PStr), t <:+ (tl :: rest2) →
            ∀ x, t.getLast? = some x → ¬ isDigitStr (pstrip x) := by
          intro t hsuf x hx
          have hne : t ≠ [] := by intro e; rw [e] at hx; simp at hx
          apply h x
          rw [show (l :: tl :: rest2 : List PStr) = [l] ++ (tl :: rest2) from rfl,
            List.getLast?_append_of_ne_nil [l] (by simp)]
          rw [← suffix_getLast t (tl :: rest2) hsuf hne]
          exact hx
        match hsp : splitArrow (pstrip tl) with
        | [t1, t2] =>
          obtain ⟨subs, hsubs⟩ := parse_srtL_ok_of_last (afterText rest2)
            (htrans (afterText rest2)
              ((afterText_suffix rest2).trans ⟨[tl], rfl⟩))
          refine ⟨(parse_time (pstrip t1) "srt", parse_time (pstrip t2) "srt",
            gatherText rest2) :: subs, ?_⟩
          rw [parse_srtL_digit_two l tl rest2 t1 t2 hd hsp, hsubs]
          rfl
        | [] =>
          obtain ⟨subs, hsubs⟩ := parse_srtL_ok_of_last rest2
            (htrans rest2 ⟨[tl], rfl⟩)
          exact ⟨subs, by
            rw [parse_srtL_digit_other l tl rest2 hd (by rw [hsp]; intro a b hab; simp at hab)]
            exact hsubs⟩
        | [t1] =>
          obtain ⟨subs, hsubs⟩ := parse_srtL_ok_of_last rest2
            (htrans rest2 ⟨[tl], rfl⟩)
          exact ⟨subs, by
            rw [parse_srtL_digit_other l tl rest2 hd (by rw [hsp]; intro a b hab; simp at hab)]
            exact hsubs⟩
        | t1 :: t2 :: t3 :: ts =>
          obtain ⟨subs, hsubs⟩ := parse_srtL_ok_of_last rest2
            (htrans rest2 ⟨[tl], rfl⟩)
          exact ⟨subs, by
            rw [parse_srtL_digit_other l tl rest2 hd (by rw [hsp]; intro a b hab; simp at hab)]
            exact hsubs⟩
    · obtain ⟨subs, hsubs⟩ := parse_srtL_ok_of_last rest (by
        intro x hx
        apply h x
        have hne : rest ≠ [] := by intro e; rw [e] at hx; simp at hx
        rw [show (l :: rest : List PStr) = [l] ++ rest from rfl,
          List.getLast?_append_of_ne_nil [l] hne]
        exact hx)
      exact ⟨subs, by rw [parse_srtL_nondigit l rest hd]; exact hsubs⟩
  termination_by lines => lines.length
  decreasing_by
    all_goals simp
    all_goals try have h9 : (afterText rest2).length ≤ rest2.length := afterText_length_le rest2
    all_goals omega

/-- C3 counterexample: `parse_srt` on the single line `"1"` performs the
unguarded `lines[i]` access past the end of the list — in Python an
`IndexError` is raised, contradicting the claim that all three parsers
always return normally. -/
theorem C3_counterexample :
    parse_srt [ofStr "1"] = .error ConvErr.indexError ∧
      ConvErr.indexError ≠ ConvErr.sameFormat := ⟨rfl, by decide⟩

/-- C3 (amended): `parse_vtt` and `parse_lrc` never raise (they are total
functions of the model); `parse_srt` can only raise the `IndexError` when
its scan treats a digits-only line as a cue index at the very end of the
input — in particular it returns normally on every input whose final line
is not digits-only. -/
theorem C3_no_raise_amended (lines : List PStr)
    (h : ∀ l, lines.getLast? = some l → ¬ isDigitStr (pstrip l)) :
    ∃ subs, parse_srt lines = .ok ("srt", subs) := by
  obtain ⟨subs, hs⟩ := parse_srtL_ok_of_last lines h
  exact ⟨subs, by rw [parse_srt, hs]; rfl⟩

/-- Witness for C3 (amended) on a one-line non-digit input. -/
theorem C3_no_raise_amended_witness :
    ∃ subs, parse_srt [ofStr "hello"] = .ok ("srt", subs) :=
  C3_no_raise_amended [ofStr "hello"] (fun l hl => by
    simp only [List.getLast?_singleton, Option.some.injEq] at hl
    subst hl
    decide)



/-! ## Claim theorems: conversion driver errors (C4 corrected, C5) -/

theorem read_file_ok_fmt (suffix : String) (content : PStr)
    (r : String × List Cue) (hr : read_file suffix content = .ok r) :
    r.1 = "srt" ∨ r.1 = "vtt" ∨ r.1 = "lrc" := by
  unfold read_file at hr
  dsimp only at hr
  split at hr
  · unfold parse_srt at hr
    match he : parse_srtL (splitNl (pstrip content)) with
    | .ok subs =>
      rw [he] at hr
      simp only [Except.map, Except.ok.injEq] at hr
      subst hr
      exact Or.inl rfl
    | .error e =>
      rw [he] at hr
      simp [Except.map] at hr
  · split at hr
    · simp only [Except.ok.injEq] at hr
      subst hr
      exact Or.inr (Or.inl rfl)
    · split at hr
      · simp only [Except.ok.injEq] at hr
        subst hr
        exact Or.inr (Or.inr rfl)
      · simp at hr

/-- C4 counterexample: on an `.srt` file whose single line is the digit
`1`, `convert` with output format `srt` raises the parser's `IndexError`
before the same-format check is reached, so it does not fail with the
same-format condition. -/
theorem C4_counterexample :
    convert ".srt" (ofStr "1") "srt" = .error ConvErr.indexError ∧
      ConvErr.indexError ≠ ConvErr.sameFormat := ⟨rfl, by decide⟩

/-- C4 (amended): `convert` with output format equal to the detected
input format fails with the same-format condition whenever `read_file`
succeeds — always for `.vtt` and `.lrc` inputs (their parsers are total),
and for `.srt` inputs whose parse does not hit the `IndexError`. -/
theorem C4_same_format_amended (suffix : String) (content : PStr) :
    (lowerStr suffix = ".vtt" → convert suffix content "vtt" = .error .sameFormat) ∧
    (lowerStr suffix = ".lrc" → convert suffix content "lrc" = .error .sameFormat) ∧
    (lowerStr suffix = ".srt" →
      ∀ r, parse_srtL (splitNl (pstrip content)) = .ok r →
        convert suffix content "srt" = .error .sameFormat) := by
  refine ⟨fun h => ?_, fun h => ?_, fun h r hr => ?_⟩
  · unfold convert read_file
    rw [h, if_neg (by decide), if_pos rfl]
    rfl
  · unfold convert read_file
    rw [h, if_neg (by decide), if_neg (by decide), if_pos rfl]
    rfl
  · unfold convert read_file parse_srt
    rw [h, if_pos rfl, hr]
    rfl

/-- Witness for C4 (amended) on concrete inputs of all three formats. -/
theorem C4_same_format_amended_witness :
    convert ".vtt" (ofStr "x") "vtt" = .error ConvErr.sameFormat ∧
    convert ".lrc" (ofStr "x") "lrc" = .error ConvErr.sameFormat ∧
    convert ".srt" (ofStr "hello") "srt" = .error ConvErr.sameFormat :=
  ⟨(C4_same_format_amended ".vtt" (ofStr "x")).1 (by decide),
    (C4_same_format_amended ".lrc" (ofStr "x")).2.1 (by decide),
    (C4_same_format_amended ".srt" (ofStr "hello")).2.2 (by decide) [] rfl⟩

/-- C5: `read_file` rejects every extension whose lower-casing is not
`.srt`, `.vtt` or `.lrc` with the unsupported-format condition, and
`convert` rejects every requested output format outside
`{srt, vtt, lrc}` with the unsupported-output condition whenever the
input itself is readable. -/
theorem C5_unsupported (suffix : String) (content : PStr) (output_format : String) :
    (lowerStr suffix ∉ [".srt", ".vtt", ".lrc"] →
      read_file suffix content = .error .unsupportedInput) ∧
    (output_format ∉ ["srt", "vtt", "lrc"] →
      (∃ r, read_file suffix content = .ok r) →
      convert suffix content output_format = .error .unsupportedOutput) := by
  constructor
  · intro h
    simp only [List.mem_cons, List.not_mem_nil, or_false, not_or] at h
    unfold read_file
    rw [if_neg h.1, if_neg h.2.1, if_neg h.2.2]
  · rintro ho ⟨r, hr⟩
    simp only [List.mem_cons, List.not_mem_nil, or_false, not_or] at ho
    have hfmt := read_file_ok_fmt suffix content r hr
    have hne : ¬ r.1 = output_format := by
      rcases hfmt with hf | hf | hf <;> rw [hf] <;>
        [exact fun e => ho.1 e.symm; exact fun e => ho.2.1 e.symm;
          exact fun e => ho.2.2 e.symm]
    unfold convert
    rw [hr]
    show (match r with
      | (input_format, subtitles) =>
        if input_format = output_format then Except.error ConvErr.sameFormat
        else if output_format = "srt" then Except.ok (to_srt subtitles)
        else if output_format = "vtt" then Except.ok (to_vtt subtitles)
        else if output_format = "lrc" then Except.ok (to_lrc subtitles)
        else Except.error ConvErr.unsupportedOutput) = _
    rcases r with ⟨fmt, subs⟩
    dsimp only
    rw [if_neg hne, if_neg ho.1, if_neg ho.2.1, if_neg ho.2.2]

/-- Witness for C5 on a `.txt` input and an unsupported output format. -/
theorem C5_unsupported_witness :
    read_file ".txt" (ofStr "x") = .error ConvErr.unsupportedInput ∧
    convert ".lrc" (ofStr "[00:01.00]a") "xyz" = .error ConvErr.unsupportedOutput :=
  ⟨(C5_unsupported ".txt" (ofStr "x") "srt").1 (by decide),
    (C5_unsupported ".lrc" (ofStr "[00:01.00]a") "xyz").2 (by decide)
      ⟨("lrc", [(1, 6, ofStr "a")]), rfl⟩⟩



/-! ## splitNl / joinNl lemmas and the vtt serializer (C9) -/

theorem splitNl_ne_nil (s : PStr) : splitNl s ≠ [] := by
  induction s with
  | nil => simp [splitNl]
  | cons c cs ih =>
    rw [splitNl]
    by_cases hc : c = '\n'
    · simp [hc]
    · rw [if_neg hc]
      match hs : splitNl cs with
      | [] => exact absurd hs ih
      | l :: ls => simp

theorem splitNl_append_nl (x y : PStr) :
    splitNl (x ++ '\n' :: y) = splitNl x ++ splitNl y := by
  induction x with
  | nil => rfl
  | cons c cs ih =>
    rw [List.cons_append, splitNl]
    by_cases hc : c = '\n'
    · rw [if_pos hc, ih, splitNl, if_pos hc]
      rfl
    · rw [if_neg hc, ih]
      rw [splitNl, if_neg hc]
      match hs : splitNl cs with
      | [] => exact absurd hs (splitNl_ne_nil cs)
      | l :: ls => rfl

theorem splitNl_no_nl (x : PStr) (h : '\n' ∉ x) : splitNl x = [x] := by
  induction x with
  | nil => rfl
  | cons c cs ih =>
    rw [splitNl, if_neg (by simp at h; exact fun e => h.1 e.symm)]
    rw [ih (by simp at h; exact fun hc => h.2 hc)]

theorem natDigitsF_isDigit : ∀ (f n : ℕ) (c : Char), c ∈ natDigitsF f n → c.isDigit
  | 0, n, c, h => by simp [natDigitsF] at h
  | f + 1, n, c, h => by
    rw [natDigitsF] at h
    by_cases hn : n < 10
    · rw [if_pos hn] at h
      simp at h
      subst h
      exact digitChar_isDigit n (by omega)
    · rw [if_neg hn] at h
      rcases List.mem_append.mp h with h | h
      · exact natDigitsF_isDigit f (n / 10) c h
      · simp at h
        subst h
        exact digitChar_isDigit (n % 10) (by omega)

theorem fmtInt_chars (w : ℕ) (i : ℤ) (c : Char) (h : c ∈ fmtInt w i) :
    c = '-' ∨ c.isDigit := by
  unfold fmtInt at h
  split at h
  · rcases List.mem_cons.mp h with h | h
    · exact Or.inl h
    · unfold padNat at h
      rcases List.mem_append.mp h with h | h
      · exact Or.inr (by rw [List.eq_of_mem_replicate h]; decide)
      · exact Or.inr (natDigitsF_isDigit _ _ c h)
  · unfold padNat at h
    rcases List.mem_append.mp h with h | h
    · exact Or.inr (by rw [List.eq_of_mem_replicate h]; decide)
    · exact Or.inr (natDigitsF_isDigit _ _ c h)

theorem fmtInt_no_nl (w : ℕ) (i : ℤ) : '\n' ∉ fmtInt w i := by
  intro h
  rcases fmtInt_chars w i '\n' h with h | h
  · exact absurd h (by decide)
  · exact absurd h (by decide)

theorem format_time_no_nl (q : ℚ) (fmt : String) : '\n' ∉ format_time q fmt := by
  intro h
  unfold format_time at h
  split at h
  · simp [List.mem_append, List.mem_cons, fmtInt_no_nl] at h
  · split at h
    · simp [List.mem_append, List.mem_cons, fmtInt_no_nl] at h
    · split at h
      · simp [List.mem_append, List.mem_cons, fmtInt_no_nl] at h
      · simp at h


/-- The time-range line of a vtt cue block. -/
def vttLine (c : Cue) : PStr :=
  format_time c.1 "vtt" ++ ofStr " --> " ++ format_time c.2.1 "vtt"

theorem vttLine_no_nl (c : Cue) : '\n' ∉ vttLine c := by
  intro h
  unfold vttLine at h
  simp only [List.mem_append] at h
  rcases h with (h | h) | h
  · exact format_time_no_nl _ _ h
  · exact absurd h (by decide)
  · exact format_time_no_nl _ _ h

theorem joinNl_cons (a : PStr) (l : List PStr) (h : l ≠ []) :
    joinNl (a :: l) = a ++ '\n' :: joinNl l := by
  match l with
  | b :: ls => rfl

theorem splitNl_cons_nl (x : PStr) : splitNl ('\n' :: x) = [] :: splitNl x := by
  rw [splitNl]
  simp

theorem splitNl_block (c : Cue) (tail : PStr) :
    splitNl (vttLine c ++ '\n' :: (c.2.2 ++ '\n' :: tail)) =
      vttLine c :: (splitNl c.2.2 ++ splitNl tail) := by
  rw [splitNl_append_nl, splitNl_append_nl, splitNl_no_nl _ (vttLine_no_nl c)]
  rfl

theorem splitNl_joinNl_vtt_blocks : ∀ (c0 : Cue) (cues : List Cue),
    splitNl (joinNl ((c0 :: cues).map fun c =>
        format_time c.1 "vtt" ++ ofStr " --> " ++ format_time c.2.1 "vtt" ++
          '\n' :: c.2.2 ++ ['\n'])) =
      (c0 :: cues).flatMap fun c => vttLine c :: (splitNl c.2.2 ++ [[]])
  | c0, [] => by
    rw [List.map_singleton]
    have he : (format_time c0.1 "vtt" ++ ofStr " --> " ++ format_time c0.2.1 "vtt" ++
        '\n' :: c0.2.2 ++ ['\n'] : PStr) =
        vttLine c0 ++ '\n' :: (c0.2.2 ++ '\n' :: []) := by
      unfold vttLine
      simp [List.append_assoc]
    show splitNl (format_time c0.1 "vtt" ++ ofStr " --> " ++ format_time c0.2.1 "vtt" ++
        '\n' :: c0.2.2 ++ ['\n']) = _
    rw [he, splitNl_block]
    simp [List.flatMap, splitNl]
  | c0, c1 :: cues => by
    rw [List.map_cons, joinNl_cons _ _ (by simp)]
    have he : ((format_time c0.1 "vtt" ++ ofStr " --> " ++ format_time c0.2.1 "vtt" ++
        '\n' :: c0.2.2 ++ ['\n']) ++
          '\n' :: joinNl ((c1 :: cues).map fun c =>
            format_time c.1 "vtt" ++ ofStr " --> " ++ format_time c.2.1 "vtt" ++
              '\n' :: c.2.2 ++ ['\n']) : PStr) =
        vttLine c0 ++ '\n' :: (c0.2.2 ++ '\n' :: ('\n' :: joinNl ((c1 :: cues).map fun c =>
          format_time c.1 "vtt" ++ ofStr " --> " ++ format_time c.2.1 "vtt" ++
            '\n' :: c.2.2 ++ ['\n']))) := by
      unfold vttLine
      simp [List.append_assoc]
    rw [he, splitNl_block, splitNl_cons_nl,
      splitNl_joinNl_vtt_blocks c1 cues]
    simp [List.flatMap_cons, List.append_assoc]

/-- The spec's section-8 example, as SRT input lines. -/
def srtExampleLines : List PStr :=
  [ofStr "1", ofStr "00:00:01,000 --> 00:00:03,000", ofStr "Hello world",
    [], ofStr "2", ofStr "00:00:04,500 --> 00:00:06,000", ofStr "Second line"]

/-- The cues of the spec's section-8 example. -/
def specExampleCues : List Cue :=
  [(1, 3, ofStr "Hello world"), (9 / 2, 6, ofStr "Second line")]

/-- Line structure of a nonempty vtt document. -/
theorem splitNl_to_vtt_cons (c0 : Cue) (rest : List Cue) :
    splitNl (to_vtt (c0 :: rest)) =
      ofStr "WEBVTT" :: [] :: ((c0 :: rest).flatMap fun c =>
        vttLine c :: (splitNl c.2.2 ++ [[]])) := by
  show splitNl (joinNl (ofStr "WEBVTT" :: [] :: _)) = _
  rw [joinNl_cons _ _ (by simp), joinNl_cons _ _ (by simp)]
  rw [show ((ofStr "WEBVTT" ++ '\n' :: ([] ++ '\n' :: joinNl ((c0 :: rest).map fun c =>
      format_time c.1 "vtt" ++ ofStr " --> " ++ format_time c.2.1 "vtt" ++
        '\n' :: c.2.2 ++ ['\n']))) : PStr) =
    ofStr "WEBVTT" ++ '\n' :: ('\n' :: joinNl ((c0 :: rest).map fun c =>
      format_time c.1 "vtt" ++ ofStr " --> " ++ format_time c.2.1 "vtt" ++
        '\n' :: c.2.2 ++ ['\n'])) from by simp]
  rw [splitNl_append_nl, splitNl_no_nl _ (by decide), splitNl_cons_nl,
    splitNl_joinNl_vtt_blocks c0 rest]
  rfl

/-- C9: `to_vtt` emits the literal `WEBVTT` header line, one blank line,
then for each cue the arrow-separated time-range line, the cue's text
lines, and a separating blank line; and on the spec's section-8 example
the emitted document is exactly the displayed VTT text. -/
theorem C9_to_vtt_structure (cues : List Cue) :
    splitNl (to_vtt cues) =
      ofStr "WEBVTT" :: [] :: (cues.flatMap fun c =>
        (format_time c.1 "vtt" ++ ofStr " --> " ++ format_time c.2.1 "vtt") ::
          (splitNl c.2.2 ++ [[]])) ∧
    parse_srt srtExampleLines = .ok ("srt", specExampleCues) ∧
    to_vtt specExampleCues = ofStr
      "WEBVTT\n\n00:00:01.000 --> 00:00:03.000\nHello world\n\n00:00:04.500 --> 00:00:06.000\nSecond line\n" := by
  refine ⟨?_, rfl, by decide⟩
  match cues with
  | [] => decide
  | c0 :: rest =>
    rw [splitNl_to_vtt_cons c0 rest]
    rfl



/-! ## Utilities for the srt to vtt round trip (C2) -/

theorem takeWhile_append_all {α : Type} (p : α → Bool) :
    ∀ (xs ys : List α), (∀ x ∈ xs, p x = true) →
      (xs ++ ys).takeWhile p = xs ++ ys.takeWhile p
  | [], ys, _ => rfl
  | x :: xs, ys, h => by
    rw [List.cons_append, List.takeWhile_cons_of_pos (h x (by simp)),
      takeWhile_append_all p xs ys (fun t ht => h t (by simp [ht])), List.cons_append]

theorem dropWhile_append_all {α : Type} (p : α → Bool) :
    ∀ (xs ys : List α), (∀ x ∈ xs, p x = true) →
      (xs ++ ys).dropWhile p = ys.dropWhile p
  | [], ys, _ => rfl
  | x :: xs, ys, h => by
    rw [List.cons_append, List.dropWhile_cons_of_pos (h x (by simp)),
      dropWhile_append_all p xs ys (fun t ht => h t (by simp [ht]))]

theorem takeWhile_all {α : Type} (p : α → Bool) (xs : List α)
    (h : ∀ x ∈ xs, p x = true) : xs.takeWhile p = xs := by
  have := takeWhile_append_all p xs [] h
  simpa using this

theorem dropWhile_all {α : Type} (p : α → Bool) (xs : List α)
    (h : ∀ x ∈ xs, p x = true) : xs.dropWhile p = [] := by
  have := dropWhile_append_all p xs [] h
  simpa using this

theorem map_pstrip_id : ∀ (ls : List PStr), (∀ t ∈ ls, pstrip t = t) →
    ls.map pstrip = ls
  | [], _ => rfl
  | t :: ls, h => by
    rw [List.map_cons, h t (by simp), map_pstrip_id ls (fun x hx => h x (by simp [hx]))]

theorem joinNl_splitNl : ∀ (s : PStr), joinNl (splitNl s) = s
  | [] => rfl
  | c :: r => by
    have ih := joinNl_splitNl r
    rw [splitNl]
    by_cases hc : c = '\n'
    · rw [if_pos hc, joinNl_cons _ _ (splitNl_ne_nil r), ih, hc]
      rfl
    · rw [if_neg hc]
      match h : splitNl r with
      | [] => exact absurd h (splitNl_ne_nil r)
      | [l] =>
        rw [h] at ih
        show c :: l = c :: r
        rw [show joinNl [l] = l from rfl] at ih
        rw [ih]
      | l :: l2 :: ls =>
        rw [h] at ih
        show (c :: l) ++ '\n' :: joinNl (l2 :: ls) = c :: r
        rw [joinNl_cons _ _ (by simp)] at ih
        rw [List.cons_append, ih]

theorem splitNl_joinNl_lines : ∀ (ls : List PStr), ls ≠ [] →
    (∀ l ∈ ls, '\n' ∉ l) → splitNl (joinNl ls) = ls
  | [a], _, h => by
    rw [show joinNl [a] = a from rfl, splitNl_no_nl a (h a (by simp))]
  | a :: b :: bs, _, h => by
    rw [joinNl_cons _ _ (by simp), splitNl_append_nl,
      splitNl_no_nl a (h a (by simp)),
      splitNl_joinNl_lines (b :: bs) (by simp) (fun l hl => h l (by simp [hl]))]
    rfl

theorem joinNl_concat_blank : ∀ (M : List PStr), M ≠ [] →
    joinNl (M ++ [[]]) = joinNl M ++ ['\n']
  | [a], _ => by simp [joinNl]
  | a :: b :: bs, _ => by
    rw [List.cons_append, joinNl_cons _ _ (by simp),
      joinNl_concat_blank (b :: bs) (by simp)]
    rw [joinNl_cons a (b :: bs) (by simp)]
    simp

theorem joinNl_concat_getLast : ∀ (M : List PStr) (a : PStr), a ≠ [] →
    joinNl (M ++ [a]) ≠ [] ∧ (joinNl (M ++ [a])).getLast? = a.getLast?
  | [], a, ha => ⟨ha, rfl⟩
  | m :: M, a, ha => by
    obtain ⟨h1, h2⟩ := joinNl_concat_getLast M a ha
    rw [List.cons_append, joinNl_cons _ _ (by simp)]
    refine ⟨by simp, ?_⟩
    rw [List.getLast?_append_of_ne_nil m (by simp)]
    match hz : joinNl (M ++ [a]) with
    | [] => exact absurd hz h1
    | w :: ws =>
      rw [hz] at h2
      rw [List.getLast?_cons_cons]
      exact h2

theorem append_concat_inj {α : Type} (l1 l2 : List α) (a : α)
    (h : l1 ++ [a] = l2 ++ [a]) : l1 = l2 := by
  have := congrArg List.dropLast h
  simpa using this

/-! ### pstrip characterizations -/

theorem dropWhileC_head_eq_self (p : Char → Bool) (l : PStr)
    (h : ∀ c, l.head? = some c → p c = false) : l.dropWhile p = l := by
  match l with
  | [] => rfl
  | c :: r =>
    rw [List.dropWhile_cons_of_neg]
    rw [h c rfl]
    simp

theorem pstrip_eq_self (s : PStr)
    (h1 : ∀ c, s.head? = some c → isPySpace c = false)
    (h2 : ∀ c, s.getLast? = some c → isPySpace c = false) : pstrip s = s := by
  unfold pstrip
  rw [dropWhileC_head_eq_self _ _ h1, dropWhileC_head_eq_self, List.reverse_reverse]
  intro c hc
  rw [List.head?_reverse] at hc
  exact h2 c hc

theorem pstrip_eq_self_of_all (s : PStr) (h : ∀ c ∈ s, isPySpace c = false) :
    pstrip s = s := by
  refine pstrip_eq_self s (fun c hc => h c (List.mem_of_mem_head? hc)) (fun c hc => ?_)
  have hm : c ∈ s.reverse := by
    apply List.mem_of_mem_head?
    rw [List.head?_reverse]
    exact hc
  rw [List.mem_reverse] at hm
  exact h c hm

theorem pstrip_length_le (s : PStr) : (pstrip s).length ≤ s.length := by
  unfold pstrip
  rw [List.length_reverse]
  calc ((s.dropWhile isPySpace).reverse.dropWhile isPySpace).length
      ≤ (s.dropWhile isPySpace).reverse.length := length_dropWhileC_le _ _
    _ = (s.dropWhile isPySpace).length := List.length_reverse _
    _ ≤ s.length := length_dropWhileC_le _ _

theorem dropWhileC_append_empty (p : Char → Bool) :
    ∀ (x y : PStr), x.dropWhile p = [] → (x ++ y).dropWhile p = y.dropWhile p
  | [], y, _ => rfl
  | a :: x, y, h => by
    rw [List.dropWhile_cons] at h
    rw [List.cons_append, List.dropWhile_cons]
    by_cases pa : p a = true
    · rw [if_pos pa] at h
      rw [if_pos pa]
      exact dropWhileC_append_empty p x y h
    · rw [if_neg pa] at h
      exact absurd h (by simp)

theorem dropWhileC_append_nonempty (p : Char → Bool) :
    ∀ (x y : PStr), x.dropWhile p ≠ [] → (x ++ y).dropWhile p = x.dropWhile p ++ y
  | [], y, h => absurd rfl h
  | a :: x, y, h => by
    rw [List.dropWhile_cons] at h
    rw [List.cons_append, List.dropWhile_cons, List.dropWhile_cons]
    by_cases pa : p a = true
    · rw [if_pos pa] at h
      rw [if_pos pa, if_pos pa]
      exact dropWhileC_append_nonempty p x y h
    · rw [if_neg pa, if_neg pa]
      simp

theorem pstrip_append_space (x : PStr) (c : Char) (hc : isPySpace c = true) :
    pstrip (x ++ [c]) = pstrip x := by
  unfold pstrip
  by_cases hx : x.dropWhile isPySpace = []
  · rw [dropWhileC_append_empty _ _ _ hx, hx]
    rw [show ([c] : PStr).dropWhile isPySpace = [] from by simp [hc]]
  · rw [dropWhileC_append_nonempty _ _ _ hx, List.reverse_append]
    rw [show ([c] : PStr).reverse = [c] from rfl, List.singleton_append,
      List.dropWhile_cons_of_pos hc]

theorem getLast_not_space_of_pstrip_eq (s : PStr) (h : pstrip s = s) :
    ∀ c, s.getLast? = some c → isPySpace c = false := by
  intro c hc
  by_contra hsp
  simp only [Bool.not_eq_false] at hsp
  have hne : s ≠ [] := by
    intro he
    rw [he] at hc
    exact Option.noConfusion hc
  have hgl : s.getLast hne = c := by
    have := List.getLast?_eq_getLast s hne
    rw [this] at hc
    exact Option.some.inj hc
  have hdecomp : s.dropLast ++ [c] = s := by
    rw [← hgl]
    exact List.dropLast_append_getLast hne
  rw [← hdecomp, pstrip_append_space _ _ hsp] at h
  have hlen := pstrip_length_le s.dropLast
  have : (pstrip s.dropLast).length = s.dropLast.length + 1 := by
    rw [h]
    simp
  omega

/-! ### splitArrow and containsArrow on separator-free strings -/

theorem splitArrow_sep (rest : PStr) :
    splitArrow (' ' :: '-' :: '-' :: '>' :: ' ' :: rest) = [] :: splitArrow rest := rfl

theorem splitArrow_no_space : ∀ (s : PStr), ' ' ∉ s → splitArrow s = [s]
  | [], _ => rfl
  | c :: r, h => by
    have hc : c ≠ ' ' := fun he => h (he ▸ List.mem_cons_self c r)
    have ih := splitArrow_no_space r (fun hm => h (List.mem_cons_of_mem c hm))
    rw [splitArrow.eq_def]
    split
    · rename_i heq
      injection heq with h1 _
      exact absurd h1 hc
    · rename_i c2 r2 hne heq
      injection heq with h1 h2
      subst h1
      subst h2
      rw [ih]
    · rename_i heq
      exact absurd heq (by simp)

theorem splitArrow_append_sep : ∀ (a b : PStr), ' ' ∉ a →
    splitArrow (a ++ ' ' :: '-' :: '-' :: '>' :: ' ' :: b) = a :: splitArrow b
  | [], b, _ => splitArrow_sep b
  | c :: a, b, h => by
    have hc : c ≠ ' ' := fun he => h (he ▸ List.mem_cons_self c a)
    have ih := splitArrow_append_sep a b (fun hm => h (List.mem_cons_of_mem c hm))
    rw [List.cons_append, splitArrow.eq_def]
    split
    · rename_i heq
      injection heq with h1 _
      exact absurd h1 hc
    · rename_i c2 r2 hne heq
      injection heq with h1 h2
      subst h1
      rw [← h2, ih]
    · rename_i heq
      exact absurd heq (by simp)

theorem containsArrow_cons_of (c : Char) (x : PStr) (h : containsArrow x = true) :
    containsArrow (c :: x) = true := by
  rw [containsArrow.eq_def]
  split
  · rfl
  · rename_i c2 r2 hne heq
    injection heq with h1 h2
    rw [← h2]
    exact h
  · rename_i heq
    exact absurd heq (by simp)

theorem containsArrow_append : ∀ (a rest : PStr),
    containsArrow (a ++ '-' :: '-' :: '>' :: rest) = true
  | [], rest => rfl
  | c :: a, rest => by
    rw [List.cons_append]
    exact containsArrow_cons_of c _ (containsArrow_append a rest)



/-! ### Canonical timestamps -/

/-- The seconds value encoded by hour, minute, second and millisecond
fields. -/
def timeVal (h m s ms : ℕ) : ℚ :=
  ((h * 3600 + m * 60 + s : ℕ) : ℚ) + (ms : ℚ) / 1000

/-- A zero-padded srt or vtt stamp with the given separator. -/
def vstamp (sep : Char) (h m s ms : ℕ) : PStr :=
  padNat 2 h ++ ':' :: padNat 2 m ++ ':' :: padNat 2 s ++ sep :: padNat 3 ms

theorem timeVal_fr_nonneg (ms : ℕ) : (0 : ℚ) ≤ (ms : ℚ) / 1000 := by positivity

theorem timeVal_fr_lt_one (ms : ℕ) (h : ms ≤ 999) : (ms : ℚ) / 1000 < 1 := by
  rw [div_lt_one (by norm_num)]
  exact_mod_cast Nat.lt_succ_of_le h

theorem floor_thousandth (ms : ℕ) : ⌊(1000 : ℚ) * ((ms : ℚ) / 1000)⌋ = (ms : ℤ) := by
  rw [mul_comm, div_mul_cancel₀ _ (by norm_num : (1000 : ℚ) ≠ 0)]
  exact Int.floor_natCast ms

theorem format_time_timeVal_srt (h m s ms : ℕ) (hh : h ≤ 99) (hm : m ≤ 59)
    (hs : s ≤ 59) (hms : ms ≤ 999) :
    format_time (timeVal h m s ms) "srt" = vstamp ',' h m s ms := by
  unfold timeVal vstamp
  rw [format_time_srt (h * 3600 + m * 60 + s) ((ms : ℚ) / 1000) (timeVal_fr_nonneg ms)
    (timeVal_fr_lt_one ms hms)]
  rw [show (h * 3600 + m * 60 + s) / 3600 = h from by omega,
    show (h * 3600 + m * 60 + s) % 3600 / 60 = m from by omega,
    show (h * 3600 + m * 60 + s) % 60 = s from by omega,
    floor_thousandth ms]
  rw [fmtInt_natCast, fmtInt_natCast, fmtInt_natCast,
    show ((ms : ℤ)) = (((ms : ℕ)) : ℤ) from rfl, fmtInt_natCast]

theorem format_time_timeVal_vtt (h m s ms : ℕ) (hh : h ≤ 99) (hm : m ≤ 59)
    (hs : s ≤ 59) (hms : ms ≤ 999) :
    format_time (timeVal h m s ms) "vtt" = vstamp '.' h m s ms := by
  unfold timeVal vstamp
  rw [format_time_vtt (h * 3600 + m * 60 + s) ((ms : ℚ) / 1000) (timeVal_fr_nonneg ms)
    (timeVal_fr_lt_one ms hms)]
  rw [show (h * 3600 + m * 60 + s) / 3600 = h from by omega,
    show (h * 3600 + m * 60 + s) % 3600 / 60 = m from by omega,
    show (h * 3600 + m * 60 + s) % 60 = s from by omega,
    floor_thousandth ms]
  rw [fmtInt_natCast, fmtInt_natCast, fmtInt_natCast,
    show ((ms : ℤ)) = (((ms : ℕ)) : ℤ) from rfl, fmtInt_natCast]

theorem parse_time_vstamp (sep : Char) (h m s ms : ℕ) (hh : h ≤ 99) (hm : m ≤ 99)
    (hs : s ≤ 99) (hms : ms ≤ 999) (hsep : sep = ',' ∨ sep = '.') (fmt : String)
    (hf : fmt = "srt" ∨ fmt = "vtt") :
    parse_time (vstamp sep h m s ms) fmt = timeVal h m s ms := by
  unfold vstamp timeVal
  rw [parse_time_stamp h m s ms hh hm hs hms sep hsep fmt hf]
  push_cast
  ring

theorem vstamp_no_space (sep : Char) (h m s ms : ℕ) (hh : h ≤ 99) (hm : m ≤ 99)
    (hs : s ≤ 99) (hms : ms ≤ 999) (hsep : isPySpace sep = false) :
    ∀ c ∈ vstamp sep h m s ms, isPySpace c = false := by
  intro c hc
  unfold vstamp at hc
  simp only [List.mem_append, List.mem_cons] at hc
  rcases hc with ((hc | (hc | hc)) | (hc | hc)) | (hc | hc)
  · exact isPySpace_eq_false_of_isDigit c (mem_padNat_two_isDigit _ hh c hc)
  · subst hc
    decide
  · exact isPySpace_eq_false_of_isDigit c (mem_padNat_two_isDigit _ hm c hc)
  · subst hc
    decide
  · exact isPySpace_eq_false_of_isDigit c (mem_padNat_two_isDigit _ hs c hc)
  · subst hc
    exact hsep
  · exact isPySpace_eq_false_of_isDigit c (mem_padNat_three_isDigit _ hms c hc)

theorem not_space_mem_of_all (s : PStr) (h : ∀ c ∈ s, isPySpace c = false) :
    ' ' ∉ s := fun hm => absurd (h ' ' hm) (by decide)

theorem vstamp_ne_nil (sep : Char) (h m s ms : ℕ) : vstamp sep h m s ms ≠ [] := by
  unfold vstamp
  cases hp : padNat 2 h with
  | nil => simp
  | cons a l => simp

/-- Stripping is the identity on an arrow-separated pair of space-free
nonempty fields, such as the time line of an srt or vtt cue block. -/
theorem pstrip_timeline (a b : PStr) (ha : ∀ c ∈ a, isPySpace c = false)
    (hb : ∀ c ∈ b, isPySpace c = false) (hane : a ≠ []) (hbne : b ≠ []) :
    pstrip (a ++ ofStr " --> " ++ b) = a ++ ofStr " --> " ++ b := by
  apply pstrip_eq_self
  · intro c hc
    obtain ⟨a0, a2, rfl⟩ := List.exists_cons_of_ne_nil hane
    simp only [List.cons_append, List.head?_cons, Option.some.injEq] at hc
    subst hc
    exact ha a0 (by simp)
  · intro c hc
    rw [List.getLast?_append_of_ne_nil _ hbne] at hc
    have hm : c ∈ b.reverse := by
      apply List.mem_of_mem_head?
      rw [List.head?_reverse]
      exact hc
    rw [List.mem_reverse] at hm
    exact hb c hm

theorem splitArrow_timeline (a b : PStr) (ha : ' ' ∉ a) (hb : ' ' ∉ b) :
    splitArrow (a ++ ofStr " --> " ++ b) = [a, b] := by
  rw [show (a ++ ofStr " --> " ++ b : PStr) =
      a ++ ' ' :: '-' :: '-' :: '>' :: ' ' :: b from by
    simp [ofStr, List.append_assoc]]
  rw [splitArrow_append_sep a b ha, splitArrow_no_space b hb]

theorem containsArrow_timeline (a b : PStr) :
    containsArrow (a ++ ofStr " --> " ++ b) = true := by
  rw [show (a ++ ofStr " --> " ++ b : PStr) =
      (a ++ [' ']) ++ '-' :: '-' :: '>' :: (' ' :: b) from by
    simp [ofStr, List.append_assoc]]
  exact containsArrow_append _ _



/-! ### Well-formed srt documents -/

/-- One block of a well-formed srt document: an index line, the four
fields of the start and end stamps, and the text lines. -/
structure SrtBlock where
  idx : PStr
  sh : ℕ
  sm : ℕ
  ss : ℕ
  sms : ℕ
  eh : ℕ
  em : ℕ
  es : ℕ
  ems : ℕ
  text : List PStr

/-- Well-formedness: the index line is a nonempty digit string, the
field values are in range (hours two digits, minutes and seconds
sexagesimal, milliseconds three digits), and each text line is nonempty,
already stripped, and free of newlines. -/
def SrtBlock.WF (b : SrtBlock) : Prop :=
  b.idx ≠ [] ∧ (∀ c ∈ b.idx, c.isDigit = true) ∧
  b.sh ≤ 99 ∧ b.sm ≤ 59 ∧ b.ss ≤ 59 ∧ b.sms ≤ 999 ∧
  b.eh ≤ 99 ∧ b.em ≤ 59 ∧ b.es ≤ 59 ∧ b.ems ≤ 999 ∧
  b.text ≠ [] ∧ ∀ t ∈ b.text, t ≠ [] ∧ pstrip t = t ∧ '\n' ∉ t

instance (b : SrtBlock) : Decidable b.WF := by
  unfold SrtBlock.WF
  infer_instance

/-- The cue encoded by a block. -/
def cueOf (b : SrtBlock) : Cue :=
  (timeVal b.sh b.sm b.ss b.sms, timeVal b.eh b.em b.es b.ems, joinNl b.text)

/-- The lines of one srt block: index line, comma-separated time range,
text lines. -/
def blockLines (b : SrtBlock) : List PStr :=
  b.idx ::
    (vstamp ',' b.sh b.sm b.ss b.sms ++ ofStr " --> " ++
      vstamp ',' b.eh b.em b.es b.ems) :: b.text

/-- The lines of a well-formed srt document: blocks separated by blank
lines. -/
def docLines : List SrtBlock → List PStr
  | [] => []
  | [b] => blockLines b
  | b :: b2 :: bs => blockLines b ++ [] :: docLines (b2 :: bs)

theorem nonBlank_of_wf (t : PStr) (hne : t ≠ []) (hst : pstrip t = t) :
    nonBlank t = true := by
  unfold nonBlank
  rw [hst]
  obtain ⟨c, r, rfl⟩ := List.exists_cons_of_ne_nil hne
  rfl

/-- The text-gathering loop on well-formed text lines followed by a
blank separator line. -/
theorem gatherText_wf (txt : List PStr)
    (h : ∀ t ∈ txt, t ≠ [] ∧ pstrip t = t ∧ '\n' ∉ t) (more : List PStr) :
    gatherText (txt ++ [] :: more) = joinNl txt ∧
      afterText (txt ++ [] :: more) = more := by
  have hnb : ∀ t ∈ txt, nonBlank t = true := fun t ht =>
    nonBlank_of_wf t (h t ht).1 (h t ht).2.1
  unfold gatherText afterText
  rw [takeWhile_append_all _ _ _ hnb, dropWhile_append_all _ _ _ hnb]
  constructor
  · rw [show (([] : PStr) :: more).takeWhile nonBlank = [] from by
      rw [List.takeWhile_cons_of_neg (by decide)]]
    rw [List.append_nil, map_pstrip_id txt (fun t ht => (h t ht).2.1)]
  · rw [show (([] : PStr) :: more).dropWhile nonBlank = [] :: more from by
      rw [List.dropWhile_cons_of_neg (by decide)]]
    rfl

/-- The text-gathering loop on well-formed text lines at the end of the
input. -/
theorem gatherText_wf_end (txt : List PStr)
    (h : ∀ t ∈ txt, t ≠ [] ∧ pstrip t = t ∧ '\n' ∉ t) :
    gatherText txt = joinNl txt ∧ afterText txt = [] := by
  have hnb : ∀ t ∈ txt, nonBlank t = true := fun t ht =>
    nonBlank_of_wf t (h t ht).1 (h t ht).2.1
  unfold gatherText afterText
  rw [takeWhile_all _ _ hnb, dropWhile_all _ _ hnb,
    map_pstrip_id txt (fun t ht => (h t ht).2.1)]
  exact ⟨rfl, rfl⟩

theorem idx_digitStr (idx : PStr) (hne : idx ≠ [])
    (hdig : ∀ c ∈ idx, c.isDigit = true) : isDigitStr (pstrip idx) = true := by
  rw [pstrip_eq_self_of_all idx
    (fun c hc => isPySpace_eq_false_of_isDigit c (hdig c hc))]
  unfold isDigitStr
  obtain ⟨c, r, rfl⟩ := List.exists_cons_of_ne_nil hne
  simp [List.all_eq_true, hdig]
  exact fun x hx => hdig x (List.mem_cons_of_mem c hx)

/-- The srt time line of a block, stripped and split at the arrow. -/
theorem srt_timeline_split (b : SrtBlock) (hb : b.WF) :
    splitArrow (pstrip (vstamp ',' b.sh b.sm b.ss b.sms ++ ofStr " --> " ++
        vstamp ',' b.eh b.em b.es b.ems)) =
      [vstamp ',' b.sh b.sm b.ss b.sms, vstamp ',' b.eh b.em b.es b.ems] := by
  obtain ⟨_, _, hsh, hsm, hss, hsms, heh, hem, hes, hems, _, _⟩ := hb
  have h1 := vstamp_no_space ',' b.sh b.sm b.ss b.sms hsh (by omega) (by omega)
    hsms (by decide)
  have h2 := vstamp_no_space ',' b.eh b.em b.es b.ems heh (by omega) (by omega)
    hems (by decide)
  rw [pstrip_timeline _ _ h1 h2 (vstamp_ne_nil _ _ _ _ _) (vstamp_ne_nil _ _ _ _ _)]
  exact splitArrow_timeline _ _ (not_space_mem_of_all _ h1) (not_space_mem_of_all _ h2)

/-- `parse_srt` on one well-formed block followed by a blank line and
tail lines: one cue, then the parse of the tail. -/
theorem parse_srtL_wf_block (b : SrtBlock) (hb : b.WF) (more : List PStr) :
    parse_srtL (blockLines b ++ [] :: more) =
      (parse_srtL more).map (fun subs => cueOf b :: subs) := by
  obtain ⟨hidx, hdig, hsh, hsm, hss, hsms, heh, hem, hes, hems, htne, htxt⟩ := hb
  have hrw : blockLines b ++ [] :: more =
      b.idx :: (vstamp ',' b.sh b.sm b.ss b.sms ++ ofStr " --> " ++
        vstamp ',' b.eh b.em b.es b.ems) :: (b.text ++ [] :: more) := by
    simp [blockLines]
  rw [hrw, parse_srtL_digit_two _ _ _ _ _ (idx_digitStr b.idx hidx hdig)
    (srt_timeline_split b ⟨hidx, hdig, hsh, hsm, hss, hsms, heh, hem, hes, hems,
      htne, htxt⟩)]
  obtain ⟨hg, ha⟩ := gatherText_wf b.text htxt more
  rw [hg, ha]
  have hp1 := pstrip_eq_self_of_all _ (vstamp_no_space ',' b.sh b.sm b.ss b.sms
    hsh (by omega) (by omega) hsms (by decide))
  have hp2 := pstrip_eq_self_of_all _ (vstamp_no_space ',' b.eh b.em b.es b.ems
    heh (by omega) (by omega) hems (by decide))
  rw [hp1, hp2, parse_time_vstamp ',' _ _ _ _ hsh (by omega) (by omega) hsms
    (Or.inl rfl) "srt" (Or.inl rfl), parse_time_vstamp ',' _ _ _ _ heh (by omega)
    (by omega) hems (Or.inl rfl) "srt" (Or.inl rfl)]
  rfl

/-- As `parse_srtL_wf_block`, for the final block of the document. -/
theorem parse_srtL_wf_block_end (b : SrtBlock) (hb : b.WF) :
    parse_srtL (blockLines b) = .ok [cueOf b] := by
  obtain ⟨hidx, hdig, hsh, hsm, hss, hsms, heh, hem, hes, hems, htne, htxt⟩ := hb
  show parse_srtL (b.idx :: _ :: b.text) = _
  rw [parse_srtL_digit_two _ _ _ _ _ (idx_digitStr b.idx hidx hdig)
    (srt_timeline_split b ⟨hidx, hdig, hsh, hsm, hss, hsms, heh, hem, hes, hems,
      htne, htxt⟩)]
  obtain ⟨hg, ha⟩ := gatherText_wf_end b.text htxt
  rw [hg, ha, parse_srtL_nil]
  have hp1 := pstrip_eq_self_of_all _ (vstamp_no_space ',' b.sh b.sm b.ss b.sms
    hsh (by omega) (by omega) hsms (by decide))
  have hp2 := pstrip_eq_self_of_all _ (vstamp_no_space ',' b.eh b.em b.es b.ems
    heh (by omega) (by omega) hems (by decide))
  rw [hp1, hp2, parse_time_vstamp ',' _ _ _ _ hsh (by omega) (by omega) hsms
    (Or.inl rfl) "srt" (Or.inl rfl), parse_time_vstamp ',' _ _ _ _ heh (by omega)
    (by omega) hems (Or.inl rfl) "srt" (Or.inl rfl)]
  rfl

/-- `parse_srt` recovers exactly the encoded cues of a well-formed srt
document. -/
theorem parse_srtL_doc : ∀ (blocks : List SrtBlock), (∀ b ∈ blocks, b.WF) →
    parse_srtL (docLines blocks) = .ok (blocks.map cueOf)
  | [], _ => rfl
  | [b], hwf => by
    show parse_srtL (blockLines b) = _
    rw [parse_srtL_wf_block_end b (hwf b (by simp))]
    rfl
  | b :: b2 :: bs, hwf => by
    show parse_srtL (blockLines b ++ [] :: docLines (b2 :: bs)) = _
    rw [parse_srtL_wf_block b (hwf b (by simp)) (docLines (b2 :: bs)),
      parse_srtL_doc (b2 :: bs) (fun x hx => hwf x (by simp [List.mem_cons] at hx ⊢; tauto))]
    rfl



/-! ### The vtt document produced by `to_vtt`, re-parsed -/

/-- The cue-block lines of a vtt document, without the header and
without the trailing blank line. -/
def reLines : List Cue → List PStr
  | [] => []
  | [c] => vttLine c :: splitNl c.2.2
  | c :: c2 :: cs => vttLine c :: splitNl c.2.2 ++ [] :: reLines (c2 :: cs)

theorem reLines_cons_ne (c : Cue) (l : List Cue) (h : l ≠ []) :
    reLines (c :: l) = vttLine c :: splitNl c.2.2 ++ [] :: reLines l := by
  match l with
  | c2 :: cs => rfl

theorem flatMap_f_reLines : ∀ (c : Cue) (cs : List Cue),
    (c :: cs).flatMap (fun c => vttLine c :: (splitNl c.2.2 ++ [[]])) =
      reLines (c :: cs) ++ [[]]
  | c, [] => by simp [reLines]
  | c, c2 :: cs => by
    rw [List.flatMap_cons, flatMap_f_reLines c2 cs, reLines_cons_ne c _ (by simp)]
    simp [List.append_assoc]

theorem reLines_concat_last : ∀ (cs : List Cue) (c : Cue),
    ∃ M, reLines (cs ++ [c]) = M ++ splitNl c.2.2
  | [], c => ⟨[vttLine c], rfl⟩
  | x :: cs, c => by
    obtain ⟨M, hM⟩ := reLines_concat_last cs c
    refine ⟨vttLine x :: splitNl x.2.2 ++ [] :: M, ?_⟩
    rw [List.cons_append, reLines_cons_ne x _ (by simp), hM]
    simp [List.append_assoc]

/-- The time line of a cue encoded by a well-formed block, in canonical
vtt stamp form. -/
theorem vttLine_cueOf (b : SrtBlock) (hb : b.WF) :
    vttLine (cueOf b) = vstamp '.' b.sh b.sm b.ss b.sms ++ ofStr " --> " ++
      vstamp '.' b.eh b.em b.es b.ems := by
  obtain ⟨_, _, hsh, hsm, hss, hsms, heh, hem, hes, hems, _, _⟩ := hb
  unfold vttLine cueOf
  rw [show ((timeVal b.sh b.sm b.ss b.sms, timeVal b.eh b.em b.es b.ems,
      joinNl b.text) : Cue).1 = timeVal b.sh b.sm b.ss b.sms from rfl,
    show ((timeVal b.sh b.sm b.ss b.sms, timeVal b.eh b.em b.es b.ems,
      joinNl b.text) : Cue).2.1 = timeVal b.eh b.em b.es b.ems from rfl,
    format_time_timeVal_vtt _ _ _ _ hsh hsm hss hsms,
    format_time_timeVal_vtt _ _ _ _ heh hem hes hems]

/-- The vtt time line of a well-formed block, stripped and split at the
arrow. -/
theorem vtt_timeline_split (b : SrtBlock) (hb : b.WF) :
    splitArrow (pstrip (vstamp '.' b.sh b.sm b.ss b.sms ++ ofStr " --> " ++
        vstamp '.' b.eh b.em b.es b.ems)) =
      [vstamp '.' b.sh b.sm b.ss b.sms, vstamp '.' b.eh b.em b.es b.ems] := by
  obtain ⟨_, _, hsh, hsm, hss, hsms, heh, hem, hes, hems, _, _⟩ := hb
  have h1 := vstamp_no_space '.' b.sh b.sm b.ss b.sms hsh (by omega) (by omega)
    hsms (by decide)
  have h2 := vstamp_no_space '.' b.eh b.em b.es b.ems heh (by omega) (by omega)
    hems (by decide)
  rw [pstrip_timeline _ _ h1 h2 (vstamp_ne_nil _ _ _ _ _) (vstamp_ne_nil _ _ _ _ _)]
  exact splitArrow_timeline _ _ (not_space_mem_of_all _ h1) (not_space_mem_of_all _ h2)

/-- `parse_vtt` on the block lines of one well-formed block followed by
a blank line and tail lines: one cue, then the parse of the tail. -/
theorem parse_vttL_wf_block (b : SrtBlock) (hb : b.WF) (more : List PStr) :
    parse_vttL (vttLine (cueOf b) :: (splitNl (cueOf b).2.2 ++ [] :: more)) =
      cueOf b :: parse_vttL more := by
  obtain ⟨hidx, hdig, hsh, hsm, hss, hsms, heh, hem, hes, hems, htne, htxt⟩ := hb
  have hbw : b.WF := ⟨hidx, hdig, hsh, hsm, hss, hsms, heh, hem, hes, hems,
    htne, htxt⟩
  have htext : splitNl (cueOf b).2.2 = b.text := by
    rw [show ((cueOf b).2.2 : PStr) = joinNl b.text from rfl,
      splitNl_joinNl_lines b.text htne (fun t ht => (htxt t ht).2.2)]
  rw [htext, vttLine_cueOf b hbw,
    parse_vttL_arrow_two _ _ _ _ (containsArrow_timeline _ _)
      (vtt_timeline_split b hbw)]
  obtain ⟨hg, ha⟩ := gatherText_wf b.text htxt more
  rw [hg, ha]
  have hp1 := pstrip_eq_self_of_all _ (vstamp_no_space '.' b.sh b.sm b.ss b.sms
    hsh (by omega) (by omega) hsms (by decide))
  have hp2 := pstrip_eq_self_of_all _ (vstamp_no_space '.' b.eh b.em b.es b.ems
    heh (by omega) (by omega) hems (by decide))
  rw [hp1, hp2, parse_time_vstamp '.' _ _ _ _ hsh (by omega) (by omega) hsms
    (Or.inr rfl) "vtt" (Or.inr rfl), parse_time_vstamp '.' _ _ _ _ heh (by omega)
    (by omega) hems (Or.inr rfl) "vtt" (Or.inr rfl)]
  rfl

/-- As `parse_vttL_wf_block`, for the final block. -/
theorem parse_vttL_wf_block_end (b : SrtBlock) (hb : b.WF) :
    parse_vttL (vttLine (cueOf b) :: splitNl (cueOf b).2.2) = [cueOf b] := by
  obtain ⟨hidx, hdig, hsh, hsm, hss, hsms, heh, hem, hes, hems, htne, htxt⟩ := hb
  have hbw : b.WF := ⟨hidx, hdig, hsh, hsm, hss, hsms, heh, hem, hes, hems,
    htne, htxt⟩
  have htext : splitNl (cueOf b).2.2 = b.text := by
    rw [show ((cueOf b).2.2 : PStr) = joinNl b.text from rfl,
      splitNl_joinNl_lines b.text htne (fun t ht => (htxt t ht).2.2)]
  rw [htext, vttLine_cueOf b hbw,
    parse_vttL_arrow_two _ _ _ _ (containsArrow_timeline _ _)
      (vtt_timeline_split b hbw)]
  obtain ⟨hg, ha⟩ := gatherText_wf_end b.text htxt
  rw [hg, ha, parse_vttL_nil]
  have hp1 := pstrip_eq_self_of_all _ (vstamp_no_space '.' b.sh b.sm b.ss b.sms
    hsh (by omega) (by omega) hsms (by decide))
  have hp2 := pstrip_eq_self_of_all _ (vstamp_no_space '.' b.eh b.em b.es b.ems
    heh (by omega) (by omega) hems (by decide))
  rw [hp1, hp2, parse_time_vstamp '.' _ _ _ _ hsh (by omega) (by omega) hsms
    (Or.inr rfl) "vtt" (Or.inr rfl), parse_time_vstamp '.' _ _ _ _ heh (by omega)
    (by omega) hems (Or.inr rfl) "vtt" (Or.inr rfl)]
  rfl

/-- The vtt parse loop recovers the cues from the cue-block lines. -/
theorem parse_vttL_reLines : ∀ (blocks : List SrtBlock), (∀ b ∈ blocks, b.WF) →
    parse_vttL (reLines (blocks.map cueOf)) = blocks.map cueOf
  | [], _ => rfl
  | [b], hwf => by
    rw [List.map_singleton,
      show reLines [cueOf b] = vttLine (cueOf b) :: splitNl (cueOf b).2.2 from rfl,
      parse_vttL_wf_block_end b (hwf b (by simp))]
  | b :: b2 :: bs, hwf => by
    rw [List.map_cons, List.map_cons,
      reLines_cons_ne (cueOf b) (cueOf b2 :: bs.map cueOf) (by simp),
      show (cueOf b2 :: bs.map cueOf : List Cue) = (b2 :: bs).map cueOf from rfl,
      List.cons_append,
      parse_vttL_wf_block b (hwf b (by simp)) (reLines ((b2 :: bs).map cueOf)),
      parse_vttL_reLines (b2 :: bs)
        (fun x hx => hwf x (by simp [List.mem_cons] at hx ⊢; tauto))]



/-- Reading back the vtt document: stripping the trailing newline and
splitting into lines yields the header, a blank line, and the cue-block
lines. -/
theorem splitNl_pstrip_to_vtt (blocks : List SrtBlock) (hne : blocks ≠ [])
    (hwf : ∀ b ∈ blocks, b.WF) :
    splitNl (pstrip (to_vtt (blocks.map cueOf))) =
      ofStr "WEBVTT" :: [] :: reLines (blocks.map cueOf) := by
  obtain ⟨b0, bs, rfl⟩ := List.exists_cons_of_ne_nil hne
  have hsplit : splitNl (to_vtt (List.map cueOf (b0 :: bs))) =
      ofStr "WEBVTT" :: [] :: (reLines (List.map cueOf (b0 :: bs)) ++ [[]]) := by
    rw [List.map_cons, splitNl_to_vtt_cons, flatMap_f_reLines]
  have hjoin : to_vtt (List.map cueOf (b0 :: bs)) =
      joinNl (ofStr "WEBVTT" :: [] :: reLines (List.map cueOf (b0 :: bs))) ++
        ['\n'] := by
    conv_lhs => rw [← joinNl_splitNl (to_vtt (List.map cueOf (b0 :: bs)))]
    rw [hsplit]
    rw [show (ofStr "WEBVTT" :: [] ::
          (reLines (List.map cueOf (b0 :: bs)) ++ [[]]) : List PStr) =
        (ofStr "WEBVTT" :: [] :: reLines (List.map cueOf (b0 :: bs))) ++ [[]]
      from by simp]
    exact joinNl_concat_blank _ (by simp)
  have hbne : b0 :: bs ≠ [] := by simp
  obtain ⟨_, _, _, _, _, _, _, _, _, _, htne, htxt⟩ := hwf _ (List.getLast_mem hbne)
  have hmapdecomp : List.map cueOf (b0 :: bs) =
      List.map cueOf (b0 :: bs).dropLast ++ [cueOf ((b0 :: bs).getLast hbne)] := by
    conv_lhs => rw [← List.dropLast_append_getLast hbne]
    rw [List.map_append, List.map_singleton]
  obtain ⟨M, hM⟩ := reLines_concat_last (List.map cueOf (b0 :: bs).dropLast)
    (cueOf ((b0 :: bs).getLast hbne))
  have htext : splitNl (cueOf ((b0 :: bs).getLast hbne)).2.2 =
      ((b0 :: bs).getLast hbne).text := by
    rw [show ((cueOf ((b0 :: bs).getLast hbne)).2.2 : PStr) =
        joinNl ((b0 :: bs).getLast hbne).text from rfl,
      splitNl_joinNl_lines _ htne (fun t ht => (htxt t ht).2.2)]
  have htldecomp : ((b0 :: bs).getLast hbne).text =
      ((b0 :: bs).getLast hbne).text.dropLast ++
        [((b0 :: bs).getLast hbne).text.getLast htne] :=
    (List.dropLast_append_getLast htne).symm
  have htlwf := htxt _ (List.getLast_mem htne)
  have hreassoc : ofStr "WEBVTT" :: [] :: reLines (List.map cueOf (b0 :: bs)) =
      (ofStr "WEBVTT" :: [] ::
        (M ++ ((b0 :: bs).getLast hbne).text.dropLast)) ++
        [((b0 :: bs).getLast hbne).text.getLast htne] := by
    conv_lhs => rw [hmapdecomp]
    rw [hM, htext]
    conv_lhs => rw [htldecomp]
    simp [List.append_assoc]
  obtain ⟨hXne, hXlast⟩ := joinNl_concat_getLast
    (ofStr "WEBVTT" :: [] :: (M ++ ((b0 :: bs).getLast hbne).text.dropLast))
    (((b0 :: bs).getLast hbne).text.getLast htne) htlwf.1
  have hlastns : ∀ c,
      (joinNl (ofStr "WEBVTT" :: [] ::
        reLines (List.map cueOf (b0 :: bs)))).getLast? = some c →
      isPySpace c = false := by
    intro c hc
    rw [hreassoc, hXlast] at hc
    exact getLast_not_space_of_pstrip_eq _ htlwf.2.1 c hc
  have hheadns : ∀ c,
      (joinNl (ofStr "WEBVTT" :: [] ::
        reLines (List.map cueOf (b0 :: bs)))).head? = some c →
      isPySpace c = false := by
    intro c hc
    rw [joinNl_cons _ _ (by simp)] at hc
    rw [show (ofStr "WEBVTT" : PStr) = 'W' :: ofStr "EBVTT" from by decide,
      List.cons_append, List.head?_cons] at hc
    rw [← Option.some.inj hc]
    decide
  have hps : pstrip (to_vtt (List.map cueOf (b0 :: bs))) =
      joinNl (ofStr "WEBVTT" :: [] :: reLines (List.map cueOf (b0 :: bs))) := by
    rw [hjoin, pstrip_append_space _ _ (by decide),
      pstrip_eq_self _ hheadns hlastns]
  rw [hps]
  refine append_concat_inj _ _ ([] : PStr) ?_
  have h1 : splitNl (joinNl (ofStr "WEBVTT" :: [] ::
      reLines (List.map cueOf (b0 :: bs))) ++ ['\n']) =
      splitNl (joinNl (ofStr "WEBVTT" :: [] ::
        reLines (List.map cueOf (b0 :: bs)))) ++ [[]] := by
    rw [show (joinNl (ofStr "WEBVTT" :: [] ::
        reLines (List.map cueOf (b0 :: bs))) ++ ['\n'] : PStr) =
      joinNl (ofStr "WEBVTT" :: [] :: reLines (List.map cueOf (b0 :: bs))) ++
        '\n' :: [] from rfl, splitNl_append_nl]
    rfl
  rw [← h1, ← hjoin, hsplit]
  simp



/-! ## Claim theorem: srt to vtt round trip (C2) -/

/-- The section-8 example document, as well-formed srt blocks. -/
def c2ExampleBlocks : List SrtBlock :=
  [⟨ofStr "1", 0, 0, 1, 0, 0, 0, 3, 0, [ofStr "Hello world"]⟩,
    ⟨ofStr "2", 0, 0, 4, 500, 0, 0, 6, 0, [ofStr "Second line"]⟩]

/-- C2: for every well-formed srt document (blocks of a digit index
line, an in-range comma-separated time range, and nonempty stripped
text lines, separated by blank lines), `parse_srt` returns exactly the
encoded cues, and re-parsing the `to_vtt` serialization of those cues
with `parse_vtt` (on the stripped, line-split document, as `read_file`
produces it) returns the same cue list: the round trip is lossless. -/
theorem C2_srt_vtt_roundtrip (blocks : List SrtBlock) (hwf : ∀ b ∈ blocks, b.WF) :
    parse_srt (docLines blocks) = .ok ("srt", blocks.map cueOf) ∧
    parse_vtt (splitNl (pstrip (to_vtt (blocks.map cueOf)))) =
      ("vtt", blocks.map cueOf) := by
  constructor
  · unfold parse_srt
    rw [parse_srtL_doc blocks hwf]
    rfl
  · by_cases hne : blocks = []
    · subst hne
      decide
    · rw [splitNl_pstrip_to_vtt blocks hne hwf]
      unfold parse_vtt
      rw [parse_vttL_noarrow _ _ (by decide), parse_vttL_noarrow _ _ (by decide),
        parse_vttL_reLines blocks hwf]

/-- C2 witness: the round trip at the section-8 example document. -/
theorem C2_srt_vtt_roundtrip_witness :
    (∀ b ∈ c2ExampleBlocks, b.WF) ∧
    (parse_srt (docLines c2ExampleBlocks) =
        .ok ("srt", c2ExampleBlocks.map cueOf) ∧
      parse_vtt (splitNl (pstrip (to_vtt (c2ExampleBlocks.map cueOf)))) =
        ("vtt", c2ExampleBlocks.map cueOf)) :=
  ⟨by decide, C2_srt_vtt_roundtrip c2ExampleBlocks (by decide)⟩
